import Mathlib

/-!
# Verification of the ConfigForge-V2Ray link pipeline

A shallow embedding of `source/main.py` (a proxy-subscription aggregator):
base64 helpers, the link classifier, the renamers, the latency prober's retry
state machine, the per-country latency aggregator, the ranking sort, and the
output writer.  Python strings are modelled as lists of Unicode code points
(`PyStr := List Nat`), bytes as lists of naturals below 256.  The Python
standard-library routines the script calls (`base64.b64decode`'s legacy
forgiving decoder, `json.dumps`/`json.loads` restricted to JSON values without
float literals, `urllib.parse.quote`, `int()`, UTF-8 codecs) are embedded with
their observable semantics.  Foreign effects (DNS, geolocation, HTTP, the
random tag suffix) enter as explicit oracle parameters.
-/

set_option maxHeartbeats 1000000

/-- Python strings, as lists of Unicode code points (Python permits lone
surrogates, which Lean `Char` forbids, so bare naturals are used). -/
abbrev PyStr := List Nat

/-- Code points of a Lean string literal, for writing concrete Python strings. -/
def pstr (s : String) : PyStr := s.data.map Char.toNat

/-- ASCII whitespace recognised by `str.strip` (the inputs of interest are
ASCII; Python also strips some higher Unicode whitespace). -/
def isWs (c : Nat) : Bool := c = 32 || c = 9 || c = 10 || c = 13 || c = 11 || c = 12

/-- `str.strip()` — drop whitespace from both ends. -/
def pyStrip (s : PyStr) : PyStr := (s.dropWhile isWs).reverse.dropWhile isWs |>.reverse

/-- `str.lower()` on the ASCII range (non-ASCII letters are left unchanged;
the script only lowercases scheme names and country codes). -/
def pyLower (s : PyStr) : PyStr :=
  s.map fun c => if 65 ≤ c ∧ c ≤ 90 then c + 32 else c

/-- `str.upper()` on the ASCII range. -/
def pyUpper (s : PyStr) : PyStr :=
  s.map fun c => if 97 ≤ c ∧ c ≤ 122 then c - 32 else c

/-- Does `pat` occur as a contiguous substring of `s` (`pat in s`)? -/
def isSubstr (pat s : PyStr) : Bool :=
  match s with
  | [] => decide (pat = [])
  | _ :: t => pat.isPrefixOf s || isSubstr pat t

/-- `s.split(sep, 1)`: the part before the first occurrence of `sep`, and the
part after it when `sep` occurs (`none` when it does not). -/
def pySplit1 (sep s : PyStr) : PyStr × Option PyStr :=
  match s with
  | [] => ([], if sep = [] then some [] else none)
  | c :: t =>
    if sep.isPrefixOf s then ([], some (s.drop sep.length))
    else
      let r := pySplit1 sep t
      (c :: r.1, r.2)

/-- `s.rsplit(sep, 1)` for a single-character separator: the part before the
last occurrence and the part after it (`none` when absent). -/
def pyRSplit1 (sep : Nat) (s : PyStr) : Option (PyStr × PyStr) :=
  match s with
  | [] => none
  | c :: t =>
    match pyRSplit1 sep t with
    | some (a, b) => some (c :: a, b)
    | none => if c = sep then some ([], t) else none

-- ────────────── UTF-8 codec ──────────────

/-- UTF-8 encoding of one code point; `none` for surrogates and values past
the Unicode range (`str.encode()` raises there). -/
def utf8Char (c : Nat) : Option (List Nat) :=
  if c < 0x80 then some [c]
  else if c < 0x800 then some [0xC0 + c / 64, 0x80 + c % 64]
  else if c < 0x10000 then
    if 0xD800 ≤ c ∧ c ≤ 0xDFFF then none
    else some [0xE0 + c / 4096, 0x80 + c / 64 % 64, 0x80 + c % 64]
  else if c < 0x110000 then
    some [0xF0 + c / 262144, 0x80 + c / 4096 % 64, 0x80 + c / 64 % 64, 0x80 + c % 64]
  else none

/-- `str.encode()`: UTF-8 bytes of a string, `none` on any unencodable
code point (Python raises `UnicodeEncodeError`). -/
def utf8Encode : PyStr → Option (List Nat)
  | [] => some []
  | c :: t => do
    let b ← utf8Char c
    let r ← utf8Encode t
    pure (b ++ r)

/-- Is `b` a UTF-8 continuation byte? -/
def isCont (b : Nat) : Bool := 0x80 ≤ b && b ≤ 0xBF

/-- One UTF-8 decoding step: given the lead byte and the remaining bytes,
the decoded code point and the count of continuation bytes consumed, or
`none` when the lead byte begins no valid sequence. -/
def utf8Step (b : Nat) (t : List Nat) : Option (Nat × Nat) :=
  if b < 0x80 then some (b, 0)
  else
    match t with
    | b2 :: t2 =>
      if 0xC2 ≤ b ∧ b ≤ 0xDF then
        if isCont b2 then some ((b - 0xC0) * 64 + (b2 - 0x80), 1) else none
      else
        match t2 with
        | b3 :: t3 =>
          if 0xE0 ≤ b ∧ b ≤ 0xEF then
            let lowOk : Bool :=
              if b = 0xE0 then 0xA0 ≤ b2 && b2 ≤ 0xBF
              else if b = 0xED then 0x80 ≤ b2 && b2 ≤ 0x9F
              else isCont b2
            if lowOk && isCont b3 then
              some ((b - 0xE0) * 4096 + (b2 - 0x80) * 64 + (b3 - 0x80), 2)
            else none
          else
            match t3 with
            | b4 :: _ =>
              if 0xF0 ≤ b ∧ b ≤ 0xF4 then
                let lowOk : Bool :=
                  if b = 0xF0 then 0x90 ≤ b2 && b2 ≤ 0xBF
                  else if b = 0xF4 then 0x80 ≤ b2 && b2 ≤ 0x8F
                  else isCont b2
                if lowOk && isCont b3 && isCont b4 then
                  some ((b - 0xF0) * 262144 + (b2 - 0x80) * 4096 + (b3 - 0x80) * 64
                    + (b4 - 0x80), 3)
                else none
              else none
            | [] => none
        | [] => none
    | [] => none

/-- Fuelled decoding loop of `bytes.decode(errors="ignore")`; every step
consumes at least one byte, so fuel equal to the byte count suffices (the
fuel makes the definition structurally recursive, hence kernel-reducible). -/
def utf8IgnoreGo : Nat → List Nat → PyStr
  | 0, _ => []
  | _ + 1, [] => []
  | f + 1, b :: t =>
    match utf8Step b t with
    | some (c, k) => c :: utf8IgnoreGo f (t.drop k)
    | none => utf8IgnoreGo f t

/-- `bytes.decode(errors="ignore")`: decode UTF-8, silently skipping bytes
that do not begin a valid sequence (equivalent, in the emitted characters, to
CPython's maximal-subpart skipping, since skipped bytes produce nothing). -/
def utf8IgnoreDecode (bs : List Nat) : PyStr := utf8IgnoreGo bs.length bs

-- ────────────── base64 (Python `base64` module semantics) ──────────────

/-- Index of a character in the standard base64 alphabet. -/
def b64Idx (c : Nat) : Option Nat :=
  if 65 ≤ c ∧ c ≤ 90 then some (c - 65)
  else if 97 ≤ c ∧ c ≤ 122 then some (c - 97 + 26)
  else if 48 ≤ c ∧ c ≤ 57 then some (c - 48 + 52)
  else if c = 43 then some 62
  else if c = 47 then some 63
  else none

/-- Character of the standard base64 alphabet at index `v < 64`. -/
def b64Chr (v : Nat) : Nat :=
  if v < 26 then v + 65
  else if v < 52 then v - 26 + 97
  else if v < 62 then v - 52 + 48
  else if v = 62 then 43
  else 47

/-- The bytes a terminated quad group emits when the padding sequence
completes at quad position `qp` with accumulator `acc`. -/
def padFlush (qp acc : Nat) : List Nat :=
  if qp = 2 then [acc / 16]
  else if qp = 3 then [acc / 1024, acc / 4 % 256]
  else []

/-- CPython's legacy (non-strict) `binascii.a2b_base64` loop: characters
outside the alphabet are discarded; a lone `=` below quad position 2 is
ignored; once at quad position 2 or 3, enough accumulated `=` characters to
complete the quad terminate decoding (the remaining input is ignored);
leftover characters at the end (quad position not 0) raise. -/
def a2bRun : List Nat → Nat → Nat → Nat → List Nat → Option (List Nat)
  | [], qp, _, _, out => if qp = 0 then some out else none
  | c :: rest, qp, acc, pads, out =>
    if c = 61 then
      if 2 ≤ qp then
        if 4 ≤ qp + pads + 1 then some (out ++ padFlush qp acc)
        else a2bRun rest qp acc (pads + 1) out
      else a2bRun rest qp acc pads out
    else
      match b64Idx c with
      | none => a2bRun rest qp acc pads out
      | some v =>
        match qp with
        | 0 => a2bRun rest 1 v 0 out
        | 1 => a2bRun rest 2 (acc * 64 + v) 0 out
        | 2 => a2bRun rest 3 (acc * 64 + v) 0 out
        | _ =>
          let n := acc * 64 + v
          a2bRun rest 0 0 0 (out ++ [n / 65536, n / 256 % 256, n % 256])

/-- `base64.b64decode` (legacy forgiving mode) on a character string. -/
def b64decodeBytes (s : PyStr) : Option (List Nat) := a2bRun s 0 0 0 []

/-- `base64.b64encode` on bytes, as a character string. -/
def b64encodeBytes : List Nat → PyStr
  | [] => []
  | [b1] => [b64Chr (b1 / 4), b64Chr (b1 % 4 * 16), 61, 61]
  | [b1, b2] => [b64Chr (b1 / 4), b64Chr (b1 % 4 * 16 + b2 / 16), b64Chr (b2 % 16 * 4), 61]
  | b1 :: b2 :: b3 :: rest =>
    let n := b1 * 65536 + b2 * 256 + b3
    b64Chr (n / 262144) :: b64Chr (n / 4096 % 64) :: b64Chr (n / 64 % 64) :: b64Chr (n % 64)
      :: b64encodeBytes rest

/-- `b64_decode` from the script: append `"=" * ((4 - len(s) % 4) % 4)`,
decode, then UTF-8-decode the bytes with errors ignored.  `none` models the
decoder raising. -/
def b64_decode (s : PyStr) : Option PyStr :=
  (b64decodeBytes (s ++ List.replicate ((4 - s.length % 4) % 4) 61)).map utf8IgnoreDecode

/-- `b64_encode` from the script: UTF-8 encode then base64-encode.  `none`
models `str.encode` raising on an unencodable code point. -/
def b64_encode (s : PyStr) : Option PyStr := (utf8Encode s).map b64encodeBytes

-- ────────────── JSON (Python `json` module, float-free fragment) ──────────────

/-- JSON values as `json.loads` produces them: objects are insertion-ordered
key/value lists (Python dicts).  Numbers are modelled as integers only; the
script's configs carry no float literals, and the parser below fails on them
(a documented restriction of the embedding). -/
inductive JVal : Type where
  | jnull : JVal
  | jbool : Bool → JVal
  | jnum : Int → JVal
  | jstr : PyStr → JVal
  | jarr : List JVal → JVal
  | jobj : List (PyStr × JVal) → JVal


/-- Python dict assignment `d[k] = v`: an existing key keeps its position and
takes the new value, a new key is appended. -/
def dictSet {α : Type} (k : PyStr) (v : α) (d : List (PyStr × α)) : List (PyStr × α) :=
  if (d.map Prod.fst).contains k then d.map (fun p => if p.1 = k then (p.1, v) else p)
  else d ++ [(k, v)]

/-- Python `d.get(k)`. -/
def dictGet {α : Type} (d : List (PyStr × α)) (k : PyStr) : Option α :=
  (d.find? (fun p => p.1 == k)).map Prod.snd

/-- Decimal digits of a natural number, accumulator form; the fuel (first
argument) exceeds the digit count at every call site, so it never runs out. -/
def natReprAux : Nat → Nat → PyStr → PyStr
  | 0, _, acc => acc
  | _ + 1, 0, acc => acc
  | fuel + 1, n + 1, acc => natReprAux fuel ((n + 1) / 10) (((n + 1) % 10 + 48) :: acc)

/-- `str` of a natural number. -/
def natRepr (n : Nat) : PyStr := if n = 0 then [48] else natReprAux n n []

/-- `str` of a Python int. -/
def intRepr : Int → PyStr
  | Int.ofNat n => natRepr n
  | Int.negSucc m => 45 :: natRepr (m + 1)

/-- Digit run of `int()`'s literal syntax: digits with single underscores
strictly between digits, accumulating the value. -/
def digitsCore : PyStr → Nat → Option Nat
  | [], acc => some acc
  | c :: t, acc =>
    if 48 ≤ c ∧ c ≤ 57 then digitsCore t (acc * 10 + (c - 48))
    else if c = 95 then
      match t with
      | d :: _ => if 48 ≤ d ∧ d ≤ 57 then digitsCore t acc else none
      | [] => none
    else none

/-- Python `int(s)`: strip whitespace, optional sign, then a digit run. -/
def pyInt (s : PyStr) : Option Int :=
  let core : PyStr → Option Nat := fun u =>
    match u with
    | c :: _ => if 48 ≤ c ∧ c ≤ 57 then digitsCore u 0 else none
    | [] => none
  match pyStrip s with
  | 43 :: u => (core u).map Int.ofNat
  | 45 :: u => (core u).map fun n => -(n : Int)
  | u => (core u).map Int.ofNat

-- ────────────── json.dumps ──────────────

/-- Lowercase hex digit. -/
def hexDigit (n : Nat) : Nat := if n < 10 then n + 48 else n - 10 + 97

/-- Four lowercase hex digits of `n % 0x10000`. -/
def hex4 (n : Nat) : PyStr :=
  [hexDigit (n / 4096 % 16), hexDigit (n / 256 % 16), hexDigit (n / 16 % 16), hexDigit (n % 16)]

/-- `json.dumps` escaping of one character (`ensure_ascii=True` default):
quote, backslash and the named controls get short escapes, all other
characters below 0x20 or at 0x7F and above get `\uXXXX` escapes, with
surrogate pairs beyond 0xFFFF. -/
def escChar (c : Nat) : PyStr :=
  if c = 34 then [92, 34]
  else if c = 92 then [92, 92]
  else if c = 8 then [92, 98]
  else if c = 12 then [92, 102]
  else if c = 10 then [92, 110]
  else if c = 13 then [92, 114]
  else if c = 9 then [92, 116]
  else if c < 32 ∨ 127 ≤ c then
    if c < 0x10000 then 92 :: 117 :: hex4 c
    else (92 :: 117 :: hex4 (0xD800 + (c - 0x10000) / 1024))
      ++ (92 :: 117 :: hex4 (0xDC00 + (c - 0x10000) % 1024))
  else [c]

/-- `json.dumps` of a string. -/
def dumpsStr (s : PyStr) : PyStr := 34 :: ((s.map escChar).flatten ++ [34])

mutual
/-- `json.dumps` with default separators (`", "` and `": "`). -/
def dumpsV : JVal → PyStr
  | .jnull => pstr "null"
  | .jbool true => pstr "true"
  | .jbool false => pstr "false"
  | .jnum i => intRepr i
  | .jstr s => dumpsStr s
  | .jarr l => 91 :: (dumpsArr l ++ [93])
  | .jobj l => 123 :: (dumpsObj l ++ [125])

/-- Comma-joined element list of a dumped array. -/
def dumpsArr : List JVal → PyStr
  | [] => []
  | [v] => dumpsV v
  | v :: w :: rest => dumpsV v ++ (44 :: 32 :: dumpsArr (w :: rest))

/-- Comma-joined `"key": value` list of a dumped object. -/
def dumpsObj : List (PyStr × JVal) → PyStr
  | [] => []
  | [(k, v)] => dumpsStr k ++ (58 :: 32 :: dumpsV v)
  | (k, v) :: q :: rest => dumpsStr k ++ (58 :: 32 :: dumpsV v) ++ (44 :: 32 :: dumpsObj (q :: rest))
end

-- ────────────── json.loads ──────────────

/-- JSON whitespace (space, tab, newline, carriage return). -/
def skipWs (s : PyStr) : PyStr := s.dropWhile fun c => c = 32 || c = 9 || c = 10 || c = 13

/-- Value of one hex digit, either case. -/
def hexVal (c : Nat) : Option Nat :=
  if 48 ≤ c ∧ c ≤ 57 then some (c - 48)
  else if 97 ≤ c ∧ c ≤ 102 then some (c - 97 + 10)
  else if 65 ≤ c ∧ c ≤ 70 then some (c - 65 + 10)
  else none

/-- Four hex digits and the remaining input. -/
def parseHex4 (s : PyStr) : Option (Nat × PyStr) :=
  match s with
  | h1 :: h2 :: h3 :: h4 :: t => do
    let v1 ← hexVal h1
    let v2 ← hexVal h2
    let v3 ← hexVal h3
    let v4 ← hexVal h4
    pure (v1 * 4096 + v2 * 256 + v3 * 16 + v4, t)
  | _ => none

/-- Short escape decoding (`\" \\ \/ \b \f \n \r \t`). -/
def escDecode (e : Nat) : Option Nat :=
  if e = 34 then some 34
  else if e = 92 then some 92
  else if e = 47 then some 47
  else if e = 98 then some 8
  else if e = 102 then some 12
  else if e = 110 then some 10
  else if e = 114 then some 13
  else if e = 116 then some 9
  else none

/-- String body scanner of `json.loads` (after the opening quote): literal
characters (raw controls rejected), short escapes, `\uXXXX` escapes with
high/low surrogate pairs combined as CPython's `py_scanstring` does.  The
fuel exceeds the consumed length at every call site. -/
def parseStrAux : Nat → PyStr → Option (PyStr × PyStr)
  | 0, _ => none
  | fuel + 1, s =>
    match s with
    | [] => none
    | c :: t =>
      if c = 34 then some ([], t)
      else if c = 92 then
        match t with
        | [] => none
        | e :: t2 =>
          if e = 117 then
            match parseHex4 t2 with
            | none => none
            | some (n, t3) =>
              if 0xD800 ≤ n ∧ n ≤ 0xDBFF then
                if (pstr "\\u").isPrefixOf t3 then
                  match parseHex4 (t3.drop 2) with
                  | none => none
                  | some (m, t5) =>
                    if 0xDC00 ≤ m ∧ m ≤ 0xDFFF then
                      (parseStrAux fuel t5).map fun r =>
                        ((0x10000 + (n - 0xD800) * 1024 + (m - 0xDC00)) :: r.1, r.2)
                    else (parseStrAux fuel t3).map fun r => (n :: r.1, r.2)
                else (parseStrAux fuel t3).map fun r => (n :: r.1, r.2)
              else (parseStrAux fuel t3).map fun r => (n :: r.1, r.2)
          else
            match escDecode e with
            | some c2 => (parseStrAux fuel t2).map fun r => (c2 :: r.1, r.2)
            | none => none
      else if c < 32 then none
      else (parseStrAux fuel t).map fun r => (c :: r.1, r.2)

/-- The unsigned part of a JSON integer literal: `0`, or a nonzero-led
maximal digit run with its value. -/
def parseNumCore (u : PyStr) : Option (Nat × PyStr) :=
  match u with
  | c :: t =>
    if c = 48 then some (0, t)
    else if 49 ≤ c ∧ c ≤ 57 then
      some ((u.takeWhile fun d => 48 ≤ d && d ≤ 57).foldl (fun a d => a * 10 + (d - 48)) 0,
        u.dropWhile fun d => 48 ≤ d && d ≤ 57)
    else none
  | [] => none

/-- Rejects a following fraction or exponent (a float literal, outside this
embedding), otherwise yields the integer. -/
def parseNumFinish (i : Int) (r : PyStr) : Option (JVal × PyStr) :=
  match r with
  | c :: _ => if c = 46 ∨ c = 101 ∨ c = 69 then none else some (.jnum i, r)
  | [] => some (.jnum i, r)

/-- Integer literal of the JSON grammar: optional minus, then `0` or a
nonzero-led digit run; inputs continuing with a fraction or exponent are
float literals, outside this embedding (mapped to failure). -/
def parseNum (s : PyStr) : Option (JVal × PyStr) :=
  match s with
  | c :: u =>
    if c = 45 then
      match parseNumCore u with
      | some (n, r) => parseNumFinish (-(n : Int)) r
      | none => none
    else
      match parseNumCore (c :: u) with
      | some (n, r) => parseNumFinish (n : Int) r
      | none => none
  | [] => none

mutual
/-- One value of `json.loads`'s scanner (no leading-whitespace skip, as in
CPython's `scan_once`). -/
def parseVal : Nat → PyStr → Option (JVal × PyStr)
  | 0, _ => none
  | fuel + 1, s =>
    match s with
    | [] => none
    | c :: t =>
      if c = 123 then
        match skipWs t with
        | x :: t2 => if x = 125 then some (.jobj [], t2) else parseObjItems fuel (x :: t2) []
        | [] => parseObjItems fuel [] []
      else if c = 91 then
        match skipWs t with
        | x :: t2 => if x = 93 then some (.jarr [], t2) else parseArrItems fuel (x :: t2) []
        | [] => parseArrItems fuel [] []
      else if c = 34 then
        (parseStrAux fuel t).map fun r => (.jstr r.1, r.2)
      else if c = 116 then
        if (pstr "rue").isPrefixOf t then some (.jbool true, t.drop 3) else none
      else if c = 102 then
        if (pstr "alse").isPrefixOf t then some (.jbool false, t.drop 4) else none
      else if c = 110 then
        if (pstr "ull").isPrefixOf t then some (.jnull, t.drop 3) else none
      else if c = 45 ∨ (48 ≤ c ∧ c ≤ 57) then parseNum s
      else none

/-- Array elements after `[` (first element position, whitespace skipped). -/
def parseArrItems : Nat → PyStr → List JVal → Option (JVal × PyStr)
  | 0, _, _ => none
  | fuel + 1, s, acc =>
    match parseVal fuel s with
    | none => none
    | some (v, r) =>
      match skipWs r with
      | x :: r2 =>
        if x = 44 then parseArrItems fuel (skipWs r2) (acc ++ [v])
        else if x = 93 then some (.jarr (acc ++ [v]), r2)
        else none
      | [] => none

/-- Object members after `{` (first key position, whitespace skipped); keys
join the dict with Python assignment semantics. -/
def parseObjItems : Nat → PyStr → List (PyStr × JVal) → Option (JVal × PyStr)
  | 0, _, _ => none
  | fuel + 1, s, acc =>
    match s with
    | c :: t =>
      if c = 34 then
        match parseStrAux fuel t with
        | none => none
        | some (k, r) =>
          match skipWs r with
          | x :: r2 =>
            if x = 58 then
              match parseVal fuel (skipWs r2) with
              | none => none
              | some (v, r3) =>
                match skipWs r3 with
                | y :: r4 =>
                  if y = 44 then parseObjItems fuel (skipWs r4) (dictSet k v acc)
                  else if y = 125 then some (.jobj (dictSet k v acc), r4)
                  else none
                | [] => none
            else none
          | [] => none
      else none
    | [] => none
end

/-- `json.loads`: skip leading whitespace, scan one value, require only
whitespace after it.  The fuel bound `2 * length + 2` strictly dominates the
parser's call count (at most two calls per consumed character). -/
def loads (s : PyStr) : Option JVal :=
  let t := skipWs s
  match parseVal (2 * t.length + 2) t with
  | some (v, r) => if skipWs r = [] then some v else none
  | none => none

-- ────────────── urllib.parse.quote ──────────────

/-- Uppercase hex digit. -/
def hexUp (n : Nat) : Nat := if n < 10 then n + 48 else n - 10 + 65

/-- Characters `quote` leaves unescaped with its default `safe="/"`:
ASCII letters, digits, `_ . - ~` and `/`. -/
def quoteSafe (c : Nat) : Bool :=
  (65 ≤ c && c ≤ 90) || (97 ≤ c && c ≤ 122) || (48 ≤ c && c ≤ 57) ||
    c == 95 || c == 46 || c == 45 || c == 126 || c == 47

/-- `urllib.parse.quote` of one character: safe characters kept, others
percent-encoded over their UTF-8 bytes; `none` when encoding raises. -/
def quoteChar (c : Nat) : Option PyStr :=
  if quoteSafe c then some [c]
  else (utf8Char c).map fun bs => (bs.map fun b => [37, hexUp (b / 16), hexUp (b % 16)]).flatten

/-- `urllib.parse.quote` with default arguments. -/
def quote : PyStr → Option PyStr
  | [] => some []
  | c :: t => do
    let h ← quoteChar c
    let r ← quote t
    pure (h ++ r)

-- ────────────── Link classifier ──────────────

/-- A character of the scheme class `[a-z0-9+.-]` in `detect_protocol`'s
regex. -/
def schemeChar (c : Nat) : Bool :=
  (97 ≤ c && c ≤ 122) || (48 ≤ c && c ≤ 57) || c == 43 || c == 46 || c == 45

/-- `detect_protocol`: the scheme token before `"://"` of the lowercased,
stripped link (`re.match` anchors at the start; the character class excludes
`:` so the match is the maximal class run followed by `"://"`); `ss` maps to
`shadowsocks`, anything else unmatched to `unknown`. -/
def detect_protocol (link : PyStr) : PyStr :=
  let s := pyLower (pyStrip link)
  let run := s.takeWhile schemeChar
  if run ≠ [] ∧ (pstr "://").isPrefixOf (s.drop run.length) then
    if run = pstr "ss" then pstr "shadowsocks" else run
  else pstr "unknown"

/-- Scheme characters accepted by `urllib.parse.urlsplit` (letters of both
cases, digits, `+ - .`). -/
def urlSchemeChar (c : Nat) : Bool :=
  (65 ≤ c && c ≤ 90) || (97 ≤ c && c ≤ 122) || (48 ≤ c && c ≤ 57) ||
    c == 43 || c == 45 || c == 46

/-- `urllib.parse.urlsplit(link).netloc`: strip C0-control-or-space bytes
from both ends, drop every tab/CR/LF, split a leading `scheme:` (first-colon
prefix of scheme characters led by a letter), then — when `//` follows — the
run up to the next `/`, `?` or `#`.  (The stdlib's bracketed-IPv6 and NFKC
netloc validation, which can raise on exotic inputs, is not modelled.) -/
def urlsplitNetloc (url : PyStr) : PyStr :=
  let u0 := (url.dropWhile fun c => c ≤ 32).reverse.dropWhile (fun c => c ≤ 32) |>.reverse
  let u := u0.filter fun c => ¬(c = 9 ∨ c = 10 ∨ c = 13)
  let rest :=
    match pySplit1 [58] u with
    | (before, some after) =>
      let headAlpha : Bool :=
        match before with
        | c :: _ => (65 ≤ c && c ≤ 90) || (97 ≤ c && c ≤ 122)
        | [] => false
      if headAlpha && before.all urlSchemeChar then after else u
    | (_, none) => u
  if (pstr "//").isPrefixOf rest then
    (rest.drop 2).takeWhile fun c => ¬(c = 47 ∨ c = 63 ∨ c = 35)
  else []

mutual
/-- Rendering of a JSON value under Python string interpolation
(`f"{value}"`): strings verbatim, ints by `str`, booleans and null by their
Python names; container reprs are approximated (single-quoted strings, no
escaping), which only matters for configs whose `add`/`port` fields are
themselves containers. -/
def fstrJ : JVal → PyStr
  | .jstr s => s
  | .jnum i => intRepr i
  | .jbool true => pstr "True"
  | .jbool false => pstr "False"
  | .jnull => pstr "None"
  | .jarr l => 91 :: ((fstrList l ++ [93]) : PyStr)
  | .jobj l => 123 :: ((fstrObj l ++ [125]) : PyStr)

/-- Comma-joined repr of array elements (string elements single-quoted). -/
def fstrList : List JVal → PyStr
  | [] => []
  | [v] => fstrElem v
  | v :: w :: rest => fstrElem v ++ (44 :: 32 :: fstrList (w :: rest))

/-- Comma-joined repr of dict items. -/
def fstrObj : List (PyStr × JVal) → PyStr
  | [] => []
  | [(k, v)] => (39 :: (k ++ [39])) ++ (58 :: 32 :: fstrElem v)
  | (k, v) :: q :: rest =>
    (39 :: (k ++ [39])) ++ (58 :: 32 :: fstrElem v) ++ (44 :: 32 :: fstrObj (q :: rest))

/-- Repr of one element inside a container: like the top-level rendering
except that strings are single-quoted. -/
def fstrElem : JVal → PyStr
  | .jstr s => 39 :: (s ++ [39])
  | .jnum i => intRepr i
  | .jbool true => pstr "True"
  | .jbool false => pstr "False"
  | .jnull => pstr "None"
  | .jarr l => 91 :: ((fstrList l ++ [93]) : PyStr)
  | .jobj l => 123 :: ((fstrObj l ++ [125]) : PyStr)

end

/-- `extract_host`: for `vmess`, decode the base64 payload after the
8-character prefix, parse JSON and join `add`/`port`; any failure gives the
empty string.  Otherwise take the URL's netloc, with `shadowsocks` user-info
before `@` discarded. -/
def extract_host (link proto : PyStr) : PyStr :=
  if proto = pstr "vmess" then
    match b64_decode (link.drop 8) with
    | none => []
    | some d =>
      match loads d with
      | some (.jobj o) =>
        fstrJ ((dictGet o (pstr "add")).getD (.jstr [])) ++
          (58 :: fstrJ ((dictGet o (pstr "port")).getD (.jstr [])))
      | _ => []
  else
    let netloc := urlsplitNetloc link
    if proto = pstr "shadowsocks" ∧ isSubstr [64] netloc then
      match pySplit1 [64] netloc with
      | (_, some after) => after
      | (_, none) => netloc
    else netloc

/-- `strip_port`: the part before the first `:`. -/
def strip_port (host : PyStr) : PyStr := (pySplit1 [58] host).1

/-- `country_flag`: regional-indicator pair for a 2-letter code; the white
flag for empty, `"unknown"`, wrong-length or non-alphabetic codes (`isalpha`
is modelled on ASCII letters). -/
def country_flag (code : PyStr) : PyStr :=
  if code = [] then pstr "🏳️"
  else
    let c := pyUpper (pyStrip code)
    if c = pstr "UNKNOWN" ∨ c.length ≠ 2 ∨ ¬ c.all (fun d => 65 ≤ d && d ≤ 90) then pstr "🏳️"
    else match c with
      | [a, b] => [a + 127397, b + 127397]
      | _ => []

-- ────────────── Collector helper ──────────────

/-- `maybe_base64_decode`: strip, then always attempt a base64 decode; the
stripped decode is used exactly when decoding succeeds and the decode
contains `"://"`, otherwise the stripped input. -/
def maybe_base64_decode (s : PyStr) : PyStr :=
  let s1 := pyStrip s
  match b64_decode s1 with
  | some d => if isSubstr (pstr "://") d then pyStrip d else s1
  | none => s1

-- ────────────── Renamers ──────────────

/-- The `try` body of `rename_vmess`: split the payload after `"://"`
(`IndexError` when absent), base64-decode, JSON-parse (dict required, since
`cfg.update` would raise otherwise), `int(port)`, update `add`/`port`/`ps`
with dict-assignment semantics, re-dump, re-encode and append the quoted tag
as a fragment.  `none` models any exception. -/
def vmessRewrite (link ip port tag : PyStr) : Option PyStr := do
  let raw ← (pySplit1 (pstr "://") link).2
  let d ← b64_decode raw
  let cfg ← loads d
  let o ← match cfg with | .jobj o => some o | _ => none
  let p ← pyInt port
  let o2 := dictSet (pstr "ps") (.jstr tag)
    (dictSet (pstr "port") (.jnum p) (dictSet (pstr "add") (.jstr ip) o))
  let enc ← b64_encode (dumpsV (.jobj o2))
  let qt ← quote tag
  pure (pstr "vmess://" ++ enc ++ (35 :: qt))

/-- `rename_vmess`: the rewrite, or the original link on any exception. -/
def rename_vmess (link ip port tag : PyStr) : PyStr :=
  (vmessRewrite link ip port tag).getD link

/-- Credentials recovery of `rename_shadowsocks`: with user-info present,
try base64-then-split and fall back to a plaintext split of the raw segment;
without user-info the base64 path alone, errors propagating. -/
def ssCreds (body : PyStr) : Option (PyStr × PyStr) :=
  match pySplit1 [64] body with
  | (creds, some _) =>
    let viaB64 : Option (PyStr × PyStr) :=
      match b64_decode creds with
      | some d =>
        match pySplit1 [58] d with
        | (m, some p) => some (m, p)
        | (_, none) => none
      | none => none
    match viaB64 with
    | some mp => some mp
    | none =>
      match pySplit1 [58] creds with
      | (m, some p) => some (m, p)
      | (_, none) => none
  | (_, none) =>
    match b64_decode body with
    | some d =>
      match pySplit1 [58] d with
      | (m, some p) => some (m, p)
      | (_, none) => none
    | none => none

/-- The `try` body of `rename_shadowsocks`: drop the fragment, recover
`method`/`password`, re-encode them and rebuild the link. -/
def ssRewrite (link ip port tag : PyStr) : Option PyStr := do
  let body0 ← (pySplit1 (pstr "ss://") link).2
  let body := if isSubstr [35] body0 then (pySplit1 [35] body0).1 else body0
  let mp ← ssCreds body
  let enc ← b64_encode (mp.1 ++ (58 :: mp.2))
  let qt ← quote tag
  pure (pstr "ss://" ++ enc ++ (64 :: (ip ++ (58 :: (port ++ (35 :: qt))))))

/-- `rename_shadowsocks`: the rewrite, or the original link on any
exception. -/
def rename_shadowsocks (link ip port tag : PyStr) : PyStr :=
  (ssRewrite link ip port tag).getD link

/-- Characters the authority-pattern bodies `[^:/#]+` exclude. -/
def hostStop (c : Nat) : Bool := c == 58 || c == 47 || c == 35

/-- Is `c` an ASCII digit (`\d` over the link strings at hand)? -/
def isDigitCh (c : Nat) : Bool := 48 ≤ c && c ≤ 57

/-- The optional `(:\d+)?` group after an authority-pattern body: when the
remainder starts with a colon and at least one digit, consume them. -/
def dropPortGroup (after : PyStr) : PyStr :=
  match after with
  | 58 :: u => if u.takeWhile isDigitCh = [] then 58 :: u else u.dropWhile isDigitCh
  | _ => after

/-- `re.sub(r"@[^:/#]+(:\d+)?", f"@{ip}:{port}", link)`: replace every
match, scanning left to right and resuming after each replacement. -/
def subAtPat (ip port : PyStr) : PyStr → PyStr
  | [] => []
  | c :: t =>
    if c = 64 then
      let run := t.takeWhile fun d => ! hostStop d
      if run = [] then 64 :: subAtPat ip port t
      else ((64 :: ip) ++ (58 :: port)) ++
        subAtPat ip port (dropPortGroup (t.dropWhile fun d => ! hostStop d))
    else c :: subAtPat ip port t
termination_by s => s.length
decreasing_by
  all_goals simp
  have key : ∀ l : PyStr, (dropPortGroup l).length ≤ l.length := by
    intro l
    unfold dropPortGroup
    rcases l with _ | ⟨c, u⟩
    · simp
    · rcases Nat.decEq c 58 with h | h
      · simp_all
      · simp_all
        split
        · simp
        · exact Nat.le_succ_of_le ((List.dropWhile_sublist isDigitCh).length_le)
  have h1 : (t.dropWhile fun d => ! hostStop d).length ≤ t.length :=
    (List.dropWhile_sublist _).length_le
  have h2 := key (t.dropWhile fun d => ! hostStop d)
  omega

/-- `re.sub(r"://[^:/#]+(:\d+)?", f"://{ip}:{port}", link)`, same scanning
discipline. -/
def subSchemePat (ip port : PyStr) : PyStr → PyStr
  | 58 :: 47 :: 47 :: t =>
    let run := t.takeWhile fun d => ! hostStop d
    if run = [] then 58 :: subSchemePat ip port (47 :: 47 :: t)
    else ((pstr "://" ++ ip) ++ (58 :: port)) ++
      subSchemePat ip port (dropPortGroup (t.dropWhile fun d => ! hostStop d))
  | c :: t => c :: subSchemePat ip port t
  | [] => []
termination_by s => s.length
decreasing_by
  all_goals simp
  have key : ∀ l : PyStr, (dropPortGroup l).length ≤ l.length := by
    intro l
    unfold dropPortGroup
    rcases l with _ | ⟨c, u⟩
    · simp
    · rcases Nat.decEq c 58 with h | h
      · simp_all
      · simp_all
        split
        · simp
        · exact Nat.le_succ_of_le ((List.dropWhile_sublist isDigitCh).length_le)
  have h1 : (t.dropWhile fun d => ! hostStop d).length ≤ t.length :=
    (List.dropWhile_sublist _).length_le
  have h2 := key (t.dropWhile fun d => ! hostStop d)
  omega

/-- The `try` body of `rename_generic`: rewrite the authority (the `@` form
when the link has one, the `://` form otherwise), then replace or append the
fragment with the quoted tag.  Only `quote` can raise here. -/
def genericRewrite (link ip port tag : PyStr) : Option PyStr := do
  let out := if isSubstr [64] link then subAtPat ip port link else subSchemePat ip port link
  let qt ← quote tag
  pure (if isSubstr [35] out then (pySplit1 [35] out).1 ++ (35 :: qt) else out ++ (35 :: qt))

/-- `rename_generic`: the rewrite, or the original link on any exception. -/
def rename_generic (link ip port tag : PyStr) : PyStr :=
  (genericRewrite link ip port tag).getD link

/-- `rename_line`, with DNS resolution (`None` = `gaierror`, falling back to
the host itself), geolocation and the random 6-digit suffix as oracles:
classify, extract `host:port` (empty aborts), split on the last colon with
default port `"443"`, resolve, build the tag and dispatch by protocol. -/
def rename_line (dns : PyStr → Option PyStr) (geo : PyStr → PyStr) (rand6 : PyStr)
    (link : PyStr) : PyStr :=
  let proto := detect_protocol link
  let host_port := extract_host link proto
  if host_port = [] then link
  else
    let hp :=
      match pyRSplit1 58 host_port with
      | some (h, p) => (h, p)
      | none => (host_port, pstr "443")
    let ip := (dns hp.1).getD hp.1
    let tag := country_flag (geo ip) ++ pstr " ShatalVPN " ++ rand6
    if proto = pstr "vmess" then rename_vmess link ip hp.2 tag
    else if proto = pstr "shadowsocks" then rename_shadowsocks link ip hp.2 tag
    else rename_generic link ip hp.2 tag

-- ────────────── Latency prober (run_ping_once) ──────────────

/-- Raw check-host result: node identifier → list whose first element lists
`(status, latency)` observations. -/
abbrev PingRaw := List (PyStr × List (List (PyStr × ℚ)))

/-- Outcome of one probe-submission request, as `run_ping_once` discriminates
them: HTTP 503, any raising failure (exception or non-2xx status), or a 2xx
JSON body carrying an optional `request_id`. -/
inductive SubmitResp : Type where
  | code503 : SubmitResp
  | failraise : SubmitResp
  | success : Option PyStr → SubmitResp

/-- The polling loop: up to `n` attempts against the oracle list of poll
responses (`some r` = HTTP 200 with truthy JSON `r`); the first hit is
returned, exhaustion (of attempts, or of modelled responses) yields none. -/
def pollLoop : Nat → List (Option PingRaw) → Option PingRaw
  | 0, _ => none
  | _ + 1, [] => none
  | n + 1, p :: rest =>
    match p with
    | some r => some r
    | none => pollLoop n rest

/-- The submission retry loop of `run_ping_once`: each attempt consumes one
oracle submission outcome; 503 and raising failures retry (the sleeps are
irrelevant to the result), success without a `request_id` aborts with the
empty dict, success with one runs the 10-round poll loop and returns its
result or — after a fruitless poll round — breaks out with the empty dict. -/
def attemptLoop : Nat → List SubmitResp → List (Option PingRaw) → PingRaw
  | 0, _, _ => []
  | _ + 1, [], _ => []
  | n + 1, s :: rest, polls =>
    match s with
    | .code503 => attemptLoop n rest polls
    | .failraise => attemptLoop n rest polls
    | .success none => []
    | .success (some _) =>
      match pollLoop 10 polls with
      | some r => r
      | none => []

/-- `run_ping_once` over response oracles: empty host gives the empty dict at
once, otherwise 3 submission attempts. -/
def run_ping_once (host : PyStr) (submits : List SubmitResp)
    (polls : List (Option PingRaw)) : PingRaw :=
  if host = [] then [] else attemptLoop 3 submits polls

-- ────────────── Aggregator (extract_latency_by_country) ──────────────

/-- Latency values: a float reading (modelled as an exact rational) or the
`float("inf")` placeholder. -/
inductive LatV : Type where
  | fin : ℚ → LatV
  | inf : LatV
deriving DecidableEq

/-- Python `<` on latency values (`+inf` compares greater than every float
and not less than itself). -/
def latLt : LatV → LatV → Bool
  | .fin a, .fin b => a < b
  | .fin _, .inf => true
  | .inf, _ => false

/-- The per-country sample collection loop: for each node in order, the
`(status, ping)` pairs of the first entry block of that node's raw result
(a missing node or empty entry list contributes nothing — the `except:
continue` path), keeping `"OK"` latencies in order. -/
def countryPings (results : PingRaw) : List PyStr → List ℚ
  | [] => []
  | node :: rest =>
    (match dictGet results node with
     | some (e0 :: _) => (e0.filter fun sp => sp.1 == pstr "OK").map Prod.snd
     | _ => []) ++ countryPings results rest

/-- `extract_latency_by_country`: each country maps to the mean of its
collected samples, `float("inf")` when there are none. -/
def extract_latency_by_country (results : PingRaw) (country_nodes : List (PyStr × List PyStr)) :
    List (PyStr × LatV) :=
  country_nodes.map fun cn =>
    let pings := countryPings results cn.2
    (cn.1, if pings = [] then LatV.inf else LatV.fin (pings.sum / (pings.length : ℚ)))

/-- Specification-side sample collection: the flat list of `"OK"` latencies
across the country's nodes. -/
def okSamples (results : PingRaw) (nodes : List PyStr) : List ℚ :=
  (nodes.map fun node =>
    match dictGet results node with
    | some (e0 :: _) => (e0.filter fun sp => sp.1 == pstr "OK").map Prod.snd
    | _ => []).flatten

/-- Specification-side aggregate: arithmetic mean, `+inf` on no samples. -/
def meanLat (l : List ℚ) : LatV :=
  if l = [] then LatV.inf else LatV.fin (l.sum / (l.length : ℚ))

-- ────────────── Ranking (per-country latency dict and stable sort) ──────────────

/-- One pass of the latency-dict construction for a single probed host:
`for link, h in all_pairs: if h == host: latencies[link] = lat`. -/
def latPass (latOf : PyStr → LatV) (all_pairs : List (PyStr × PyStr)) (host : PyStr)
    (d : List (PyStr × LatV)) : List (PyStr × LatV) :=
  match all_pairs with
  | [] => d
  | lh :: rest =>
    latPass latOf rest host (if lh.2 = host then dictSet lh.1 (latOf host) d else d)

/-- The host passes of the latency-dict construction, continuing from an
accumulated dict. -/
def buildLatenciesFrom (latOf : PyStr → LatV) (all_pairs : List (PyStr × PyStr)) :
    List PyStr → List (PyStr × LatV) → List (PyStr × LatV)
  | [], d => d
  | host :: rest, d => buildLatenciesFrom latOf all_pairs rest (latPass latOf all_pairs host d)

/-- The `latencies` dict: passes over the probed hosts in the (set-derived,
hence arbitrary) enumeration order `hostsOrder`, with `latOf h` the latency
this country assigns to host `h`. -/
def buildLatencies (hostsOrder : List PyStr) (latOf : PyStr → LatV)
    (all_pairs : List (PyStr × PyStr)) : List (PyStr × LatV) :=
  buildLatenciesFrom latOf all_pairs hostsOrder []

/-- Stable ascending insertion for `sorted(..., key=lambda x: x[1])`: the
new element goes before the first resident not strictly below it, so equal
keys keep their input order. -/
def latInsert (x : PyStr × LatV) : List (PyStr × LatV) → List (PyStr × LatV)
  | [] => [x]
  | y :: ys => if latLt y.2 x.2 then y :: latInsert x ys else x :: y :: ys

/-- Python `sorted` by the latency key: a stable ascending sort (`latLt` is a
strict weak order, so every stable sort — timsort included — produces this
output). -/
def latSort : List (PyStr × LatV) → List (PyStr × LatV)
  | [] => []
  | x :: xs => latInsert x (latSort xs)

/-- `sorted_links` of the per-country processing: the dict entries sorted by
latency, keys only. -/
def sorted_links (hostsOrder : List PyStr) (latOf : PyStr → LatV)
    (all_pairs : List (PyStr × PyStr)) : List PyStr :=
  (latSort (buildLatencies hostsOrder latOf all_pairs)).map Prod.fst

-- ────────────── Writer ──────────────

/-- `save_to_file`: an empty line list is skipped (no file written), anything
else is written as the LF-joined lines. -/
def save_to_file (lines : List PyStr) : Option (List PyStr) :=
  if lines = [] then none else some lines

/-- The two aggregate files of one country: `all.txt` from the full
renamed ranked list, `light.txt` from its first 30 entries. -/
def country_files (renamed_all : List PyStr) : Option (List PyStr) × Option (List PyStr) :=
  (save_to_file renamed_all, save_to_file (renamed_all.take 30))

-- ────────────── Well-formed vmess configs (for the round-trip analysis) ──────────────

/-- A code point a real Python string can carry without being a lone
surrogate: these are exactly the strings `json.dumps` later reparses to
themselves. -/
def canonOk (c : Nat) : Bool := c < 0x110000 && !(0xD800 ≤ c && c ≤ 0xDFFF)

/-- All characters surrogate-free and in Unicode range. -/
def canonStr (s : PyStr) : Bool := s.all canonOk

/-- Keys pairwise distinct, as `json.loads` (building a dict) guarantees. -/
def keysUnique : List (PyStr × JVal) → Bool
  | [] => true
  | (k, _) :: t => !(t.map Prod.fst).contains k && keysUnique t

mutual
/-- Canonical JSON values: the shapes `json.loads` can produce in this
embedding — surrogate-free strings and duplicate-free object keys. -/
def canonV : JVal → Bool
  | .jnull => true
  | .jbool _ => true
  | .jnum _ => true
  | .jstr s => canonStr s
  | .jarr l => canonArr l
  | .jobj l => keysUnique l && canonObj l

/-- Canonicity of array elements. -/
def canonArr : List JVal → Bool
  | [] => true
  | v :: t => canonV v && canonArr t

/-- Canonicity of object entries. -/
def canonObj : List (PyStr × JVal) → Bool
  | [] => true
  | (k, v) :: t => canonStr k && canonV v && canonObj t
end

mutual
/-- Fuel need of the JSON scanner on a dumped value. -/
def sizeJ : JVal → Nat
  | .jnull => 1
  | .jbool _ => 1
  | .jnum _ => 1
  | .jstr s => s.length + 2
  | .jarr l => sizeA l + 1
  | .jobj l => sizeO l + 1

/-- Fuel need of the element loop of a dumped array. -/
def sizeA : List JVal → Nat
  | [] => 1
  | v :: t => max (sizeJ v) (sizeA t) + 1

/-- Fuel need of the member loop of a dumped object. -/
def sizeO : List (PyStr × JVal) → Nat
  | [] => 1
  | (k, v) :: t => max (k.length + 1) (max (sizeJ v) (sizeO t)) + 1
end

/-- The `cfg.update({"add": ip, "port": int(port), "ps": tag})` step, with
Python dict-assignment semantics in the literal's order. -/
def vmessUpdate (o : List (PyStr × JVal)) (ip : PyStr) (p : Int) (tag : PyStr) :
    List (PyStr × JVal) :=
  dictSet (pstr "ps") (.jstr tag) (dictSet (pstr "port") (.jnum p) (dictSet (pstr "add") (.jstr ip) o))

/-- The canonical encoding of a vmess link for a config object `o`:
`vmess://` followed by the base64 of the dumped JSON (dumped JSON is pure
ASCII, so the byte encoding always succeeds). -/
def vmessLink (o : List (PyStr × JVal)) : PyStr :=
  pstr "vmess://" ++ (b64_encode (dumpsV (.jobj o))).getD []

/-- Re-reading the display name along `extract_host`'s decode path: decode
the base64 payload after the 8-character prefix, parse, read `ps`. -/
def vmess_reparse_ps (link : PyStr) : Option JVal := do
  let d ← b64_decode (link.drop 8)
  let cfg ← loads d
  match cfg with
  | .jobj o => dictGet o (pstr "ps")
  | _ => none

-- ────────────── Theorems ──────────────

theorem countryPings_eq_okSamples (results : PingRaw) (nodes : List PyStr) :
    countryPings results nodes = okSamples results nodes := by
  induction nodes with
  | nil => rfl
  | cons n rest ih => simp [countryPings, okSamples, ih]

theorem okSamples_nil_of_missing (results : PingRaw) (nodes : List PyStr)
    (h : ∀ n ∈ nodes, dictGet results n = none) : okSamples results nodes = [] := by
  induction nodes with
  | nil => rfl
  | cons n rest ih =>
    have hn := h n (List.mem_cons_self n rest)
    have hrest := ih fun m hm => h m (List.mem_cons_of_mem n hm)
    simp [okSamples, hn] at hrest ⊢
    exact hrest

/-- C5: `extract_latency_by_country` maps every country to the arithmetic
mean of the successful (`status == "OK"`) latency samples across that
country's nodes, and to `+infinity` when there are zero successful samples —
in particular for a country none of whose nodes appears in the raw result. -/
theorem extract_latency_by_country_mean (results : PingRaw)
    (cn : List (PyStr × List PyStr)) (c : PyStr) (nodes : List PyStr)
    (hmiss : ∀ n ∈ nodes, dictGet results n = none) :
    extract_latency_by_country results cn
      = cn.map (fun p => (p.1, meanLat (okSamples results p.2)))
    ∧ extract_latency_by_country results [(c, nodes)] = [(c, LatV.inf)] := by
  constructor
  · induction cn with
    | nil => rfl
    | cons p rest ih =>
      simp [extract_latency_by_country] at ih ⊢
      exact ⟨by simp [countryPings_eq_okSamples, meanLat], ih⟩
  · simp [extract_latency_by_country, countryPings_eq_okSamples,
      okSamples_nil_of_missing results nodes hmiss]

/-- C5 witness: a concrete raw result and country map. -/
theorem extract_latency_by_country_mean_witness :
    (∀ n ∈ [pstr "n9"], dictGet [(pstr "n1", [[(pstr "OK", (10 : ℚ))]])] n = none)
    ∧ extract_latency_by_country [(pstr "n1", [[(pstr "OK", (10 : ℚ))]])]
        [(pstr "de", [pstr "n1"])]
      = [(pstr "de", [pstr "n1"])].map
          (fun p => (p.1, meanLat (okSamples [(pstr "n1", [[(pstr "OK", (10 : ℚ))]])] p.2)))
    ∧ extract_latency_by_country [(pstr "n1", [[(pstr "OK", (10 : ℚ))]])] [(pstr "fr", [pstr "n9"])]
      = [(pstr "fr", LatV.inf)] := by
  refine ⟨by decide, ?_, ?_⟩
  · exact (extract_latency_by_country_mean _ _ (pstr "fr") [pstr "n9"] (by decide)).1
  · exact (extract_latency_by_country_mean _ [] (pstr "fr") [pstr "n9"] (by decide)).2

/-- C4: probe submission retries HTTP 503 up to 3 total attempts — two 503s
then a submission success yield the poll loop's (non-empty) result, while
three or more consecutive 503s yield the empty result. -/
theorem run_ping_once_retry_503 (host reqid : PyStr) (polls : List (Option PingRaw))
    (r : PingRaw) (rest rest2 : List SubmitResp)
    (hh : host ≠ []) (hpoll : pollLoop 10 polls = some r) (hr : r ≠ []) :
    (run_ping_once host (.code503 :: .code503 :: .success (some reqid) :: rest) polls = r
      ∧ run_ping_once host (.code503 :: .code503 :: .success (some reqid) :: rest) polls ≠ [])
    ∧ run_ping_once host (.code503 :: .code503 :: .code503 :: rest2) polls = [] := by
  simp [run_ping_once, attemptLoop, hh, hpoll, hr]

/-- C4 witness: concrete oracle responses. -/
theorem run_ping_once_retry_503_witness :
    (pstr "h" ≠ [] ∧ pollLoop 10 [some [(pstr "n", [])]] = some [(pstr "n", [])]
      ∧ ([(pstr "n", ([] : List (List (PyStr × ℚ))))] : PingRaw) ≠ [])
    ∧ run_ping_once (pstr "h")
        (.code503 :: .code503 :: .success (some (pstr "id")) :: []) [some [(pstr "n", [])]]
        = [(pstr "n", [])]
    ∧ run_ping_once (pstr "h") (.code503 :: .code503 :: .code503 :: []) [some [(pstr "n", [])]]
        = [] := by
  have h := run_ping_once_retry_503 (pstr "h") (pstr "id") [some [(pstr "n", [])]]
    [(pstr "n", [])] [] [] (by decide) (by decide) (by decide)
  exact ⟨⟨by decide, by decide, by decide⟩, h.1.1, h.2⟩

/-- C8: each renamer is fail-soft — whenever its protocol-specific rewrite
raises (the rewrite body yields `none`), the original link is returned
unmodified. -/
theorem renamers_fail_soft (link1 link2 link3 ip port tag : PyStr)
    (h1 : vmessRewrite link1 ip port tag = none)
    (h2 : ssRewrite link2 ip port tag = none)
    (h3 : genericRewrite link3 ip port tag = none) :
    rename_vmess link1 ip port tag = link1
    ∧ rename_shadowsocks link2 ip port tag = link2
    ∧ rename_generic link3 ip port tag = link3 := by
  simp [rename_vmess, rename_shadowsocks, rename_generic, h1, h2, h3]

/-- C8 witness: a link without `"://"` makes the vmess and shadowsocks
rewrites raise, and an unencodable (lone surrogate) tag makes the generic
rewrite's `quote` raise. -/
theorem renamers_fail_soft_witness :
    (vmessRewrite (pstr "x") (pstr "1.2.3.4") (pstr "443") [55296] = none
      ∧ ssRewrite (pstr "x") (pstr "1.2.3.4") (pstr "443") [55296] = none
      ∧ genericRewrite (pstr "x") (pstr "1.2.3.4") (pstr "443") [55296] = none)
    ∧ rename_vmess (pstr "x") (pstr "1.2.3.4") (pstr "443") [55296] = pstr "x"
    ∧ rename_shadowsocks (pstr "x") (pstr "1.2.3.4") (pstr "443") [55296] = pstr "x"
    ∧ rename_generic (pstr "x") (pstr "1.2.3.4") (pstr "443") [55296] = pstr "x" := by
  have h := renamers_fail_soft (pstr "x") (pstr "x") (pstr "x")
    (pstr "1.2.3.4") (pstr "443") [55296] (by decide) (by decide) (by decide)
  exact ⟨⟨by decide, by decide, by decide⟩, h.1, h.2.1, h.2.2⟩

/-- C9: whenever both aggregate files of a country are written, the "light"
file holds at most 30 lines and its line sequence is a prefix of the "all"
file's. -/
theorem light_file_prefix (renamed_all allLines lightLines : List PyStr)
    (hall : (country_files renamed_all).1 = some allLines)
    (hlight : (country_files renamed_all).2 = some lightLines) :
    lightLines.length ≤ 30 ∧ ∃ t, allLines = lightLines ++ t := by
  unfold country_files save_to_file at hall hlight
  simp only at hall hlight
  split at hall
  · exact absurd hall (by simp)
  · split at hlight
    · exact absurd hlight (by simp)
    · obtain rfl : renamed_all = allLines := Option.some.inj hall
      obtain rfl : List.take 30 renamed_all = lightLines := Option.some.inj hlight
      refine ⟨by simp, List.drop 30 renamed_all, ?_⟩
      exact (List.take_append_drop 30 renamed_all).symm

/-- C9 witness: a two-line ranked list. -/
theorem light_file_prefix_witness :
    ((country_files [pstr "a", pstr "b"]).1 = some [pstr "a", pstr "b"]
      ∧ (country_files [pstr "a", pstr "b"]).2 = some [pstr "a", pstr "b"])
    ∧ ([pstr "a", pstr "b"] : List PyStr).length ≤ 30
    ∧ ∃ t, ([pstr "a", pstr "b"] : List PyStr) = [pstr "a", pstr "b"] ++ t := by
  exact ⟨⟨by decide, by decide⟩,
    light_file_prefix [pstr "a", pstr "b"] [pstr "a", pstr "b"] [pstr "a", pstr "b"]
      (by decide) (by decide)⟩

theorem pyRSplit1_eq_none_of_not_mem (sep : Nat) (s : PyStr) (h : sep ∉ s) :
    pyRSplit1 sep s = none := by
  induction s with
  | nil => rfl
  | cons c t ih =>
    have hc : ¬ c = sep := fun hc => h (by simp [hc])
    simp [pyRSplit1, ih fun hm => h (List.mem_cons_of_mem c hm), hc]

/-- C10: when the extracted `host:port` string holds no colon, the rename
stage falls back to the default port `"443"` for the protocol-specific
rewrite (a default the specification does not state). -/
theorem rename_line_default_port (dns : PyStr → Option PyStr) (geo : PyStr → PyStr)
    (rand6 link : PyStr)
    (hne : extract_host link (detect_protocol link) ≠ [])
    (hnc : (58 : Nat) ∉ extract_host link (detect_protocol link)) :
    rename_line dns geo rand6 link =
      (let proto := detect_protocol link
       let host := extract_host link proto
       let ip := (dns host).getD host
       let tag := country_flag (geo ip) ++ pstr " ShatalVPN " ++ rand6
       if proto = pstr "vmess" then rename_vmess link ip (pstr "443") tag
       else if proto = pstr "shadowsocks" then rename_shadowsocks link ip (pstr "443") tag
       else rename_generic link ip (pstr "443") tag) := by
  simp [rename_line, pyRSplit1_eq_none_of_not_mem 58 _ hnc, hne]

/-- C10 witness: a portless generic link. -/
theorem rename_line_default_port_witness :
    (extract_host (pstr "trojan://h") (detect_protocol (pstr "trojan://h")) ≠ []
      ∧ (58 : Nat) ∉ extract_host (pstr "trojan://h") (detect_protocol (pstr "trojan://h")))
    ∧ rename_line (fun _ => none) (fun _ => pstr "de") (pstr "123456") (pstr "trojan://h")
        = rename_generic (pstr "trojan://h") (pstr "h") (pstr "443")
            (country_flag (pstr "de") ++ pstr " ShatalVPN " ++ pstr "123456") := by
  have h := rename_line_default_port (fun _ => none) (fun _ => pstr "de") (pstr "123456")
    (pstr "trojan://h") (by decide) (by decide)
  exact ⟨⟨by decide, by decide⟩, by rw [h]; rfl⟩

/-- C7 counterexample: the body `"Oi8v://8="` contains `"://"` yet is not
used as-is — its base64 decode (`"://"`, after control bytes are dropped)
also contains `"://"`, so the collector replaces the body by the decode. -/
theorem maybe_base64_decode_replaces_linked_body :
    isSubstr (pstr "://") (pstr "Oi8v://8=") = true
    ∧ maybe_base64_decode (pstr "Oi8v://8=") = pstr "://"
    ∧ maybe_base64_decode (pstr "Oi8v://8=") ≠ pstr "Oi8v://8=" := by decide

/-- C7 (amended): the collector always attempts base64 decoding of the
stripped body, whether or not the body contains `"://"`; the stripped decode
is used exactly when decoding succeeds and the decode contains `"://"`
(in particular for bodies without `"://"` whose decode contains link-like
substrings), and the stripped body is used otherwise. -/
theorem maybe_base64_decode_branches (s : PyStr) :
    (∀ d, b64_decode (pyStrip s) = some d → isSubstr (pstr "://") d = true →
      maybe_base64_decode s = pyStrip d)
    ∧ (∀ d, b64_decode (pyStrip s) = some d → isSubstr (pstr "://") d = false →
      maybe_base64_decode s = pyStrip s)
    ∧ (b64_decode (pyStrip s) = none → maybe_base64_decode s = pyStrip s) := by
  refine ⟨fun d hd hsub => ?_, fun d hd hsub => ?_, fun hd => ?_⟩ <;>
    simp [maybe_base64_decode, hd] <;> simp [hsub]

/-- C7 witness: a linkless base64 body whose decode is a link, and a body on
which decoding raises. -/
theorem maybe_base64_decode_branches_witness :
    (b64_decode (pyStrip (pstr "dm1lc3M6Ly94")) = some (pstr "vmess://x")
      ∧ isSubstr (pstr "://") (pstr "vmess://x") = true
      ∧ isSubstr (pstr "://") (pstr "dm1lc3M6Ly94") = false
      ∧ maybe_base64_decode (pstr "dm1lc3M6Ly94") = pyStrip (pstr "vmess://x"))
    ∧ (b64_decode (pyStrip (pstr "YWJjX")) = none
      ∧ maybe_base64_decode (pstr "YWJjX") = pyStrip (pstr "YWJjX")) := by
  have h1 := (maybe_base64_decode_branches (pstr "dm1lc3M6Ly94")).1
    (pstr "vmess://x") (by decide) (by decide)
  have h2 := (maybe_base64_decode_branches (pstr "YWJjX")).2.2 (by decide)
  exact ⟨⟨by decide, by decide, by decide, h1⟩, by decide, h2⟩

/-- C3 counterexample: a link collected twice (same string, same host)
appears only once in the per-country ranked output — the `latencies` dict is
keyed by the link string, so exact-string duplicates collapse. -/
theorem ranked_output_collapses_duplicates :
    sorted_links [pstr "h"] (fun _ => LatV.inf)
        [(pstr "lnk", pstr "h"), (pstr "lnk", pstr "h")]
      = [pstr "lnk"] := by decide


theorem latLt_self_eq_false (v : LatV) : latLt v v = false := by
  cases v with
  | fin q => simp [latLt]
  | inf => simp [latLt]

theorem sublist_latInsert (x : PyStr × LatV) (d : List (PyStr × LatV)) :
    List.Sublist d (latInsert x d) := by
  induction d with
  | nil => simp [latInsert]
  | cons y ys ih =>
    by_cases h : latLt y.2 x.2 = true
    · simpa [latInsert, h] using ih.cons₂ y
    · simp only [latInsert, h, Bool.false_eq_true, if_false]
      exact (y :: ys).sublist_cons_self x

theorem latInsert_perm (x : PyStr × LatV) (d : List (PyStr × LatV)) :
    List.Perm (latInsert x d) (x :: d) := by
  induction d with
  | nil => rfl
  | cons y ys ih =>
    by_cases h : latLt y.2 x.2 = true
    · simp only [latInsert, h, if_true]
      exact (ih.cons y).trans (List.Perm.swap x y ys)
    · simp [latInsert, h]

theorem latSort_perm (d : List (PyStr × LatV)) : List.Perm (latSort d) d := by
  induction d with
  | nil => rfl
  | cons x xs ih => exact (latInsert_perm x (latSort xs)).trans (ih.cons x)

theorem latInsert_before (x q : PyStr × LatV) (d : List (PyStr × LatV))
    (hq : List.Sublist [q] d) (hlt : latLt q.2 x.2 = false) :
    List.Sublist [x, q] (latInsert x d) := by
  induction d with
  | nil => cases hq
  | cons y ys ih =>
    by_cases h : latLt y.2 x.2 = true
    · simp only [latInsert, h, if_true]
      rcases List.mem_cons.mp (List.singleton_sublist.mp hq) with hqy | hqys
      · rw [hqy] at hlt
        rw [hlt] at h
        cases h
      · exact (ih (List.singleton_sublist.mpr hqys)).cons y
    · simp only [latInsert, h, Bool.false_eq_true, if_false]
      exact hq.cons₂ x

theorem latSort_stable (p q : PyStr × LatV) (d : List (PyStr × LatV))
    (h : List.Sublist [p, q] d) (hlt : latLt q.2 p.2 = false) :
    List.Sublist [p, q] (latSort d) := by
  induction d with
  | nil => cases h
  | cons x xs ih =>
    cases h with
    | cons _ h1 => exact (ih h1).trans (sublist_latInsert x (latSort xs))
    | cons₂ _ h1 =>
      have hq : q ∈ latSort xs := (latSort_perm xs).mem_iff.mpr (List.singleton_sublist.mp h1)
      exact latInsert_before p q (latSort xs) (List.singleton_sublist.mpr hq) hlt

theorem dictSet_keys {α : Type} (k : PyStr) (v : α) (d : List (PyStr × α)) :
    (dictSet k v d).map Prod.fst =
      if k ∈ d.map Prod.fst then d.map Prod.fst else d.map Prod.fst ++ [k] := by
  unfold dictSet
  by_cases h : k ∈ d.map Prod.fst
  · rw [if_pos (List.elem_eq_true_of_mem h), if_pos h, List.map_map]
    exact List.map_congr_left fun p _ => by by_cases hp : p.1 = k <;> simp [hp]
  · have hc : ((d.map Prod.fst).contains k = true) → False := fun hcc =>
      h (List.mem_of_elem_eq_true hcc)
    rw [if_neg hc, if_neg h, List.map_append]
    rfl

theorem dictSet_keys_out {α : Type} (k k2 : PyStr) (v : α) (d : List (PyStr × α))
    (hk : k2 ∉ d.map Prod.fst) (hne : k2 ≠ k) :
    k2 ∉ (dictSet k v d).map Prod.fst := by
  rw [dictSet_keys]
  split
  · exact hk
  · simp only [List.mem_append, List.mem_singleton]
    rintro (h | h)
    · exact hk h
    · exact hne h

theorem dictSet_keys_nodup {α : Type} (k : PyStr) (v : α) (d : List (PyStr × α))
    (h : (d.map Prod.fst).Nodup) : ((dictSet k v d).map Prod.fst).Nodup := by
  rw [dictSet_keys]
  split
  · exact h
  · rename_i hk
    simp [List.nodup_append, h, hk]

theorem dictSet_append_new {α : Type} (k : PyStr) (v : α) (d : List (PyStr × α))
    (h : k ∉ d.map Prod.fst) : dictSet k v d = d ++ [(k, v)] := by
  unfold dictSet
  rw [if_neg fun hc => h (List.mem_of_elem_eq_true hc)]

theorem dictSet_sublist_fixed {α : Type} (k : PyStr) (v : α) (d pq : List (PyStr × α))
    (hsub : List.Sublist pq d) (hfix : ∀ x ∈ pq, x.1 = k → x.2 = v) :
    List.Sublist pq (dictSet k v d) := by
  unfold dictSet
  split
  · have hmap := hsub.map fun p => if p.1 = k then (p.1, v) else p
    have hpq : ∀ l : List (PyStr × α), (∀ x ∈ l, x.1 = k → x.2 = v) →
        l.map (fun p => if p.1 = k then (p.1, v) else p) = l := by
      intro l
      induction l with
      | nil => exact fun _ => rfl
      | cons x xs ih =>
        intro hl
        have hx := hl x (List.mem_cons_self x xs)
        have hxs := ih fun y hy => hl y (List.mem_cons_of_mem x hy)
        by_cases hk : x.1 = k
        · have hv := hx hk
          simp only [List.map_cons, hk, if_true, hxs]
          rw [← hv, ← hk]
        · simp [hk, hxs]
    rwa [hpq pq hfix] at hmap
  · exact hsub.trans (List.sublist_append_left d [(k, v)])

theorem latPass_keeps_out (latOf : PyStr → LatV) (host k : PyStr) :
    ∀ (pairs : List (PyStr × PyStr)) (d : List (PyStr × LatV)),
      k ∉ d.map Prod.fst → (∀ h2, (k, h2) ∈ pairs → h2 ≠ host) →
      k ∉ (latPass latOf pairs host d).map Prod.fst := by
  intro pairs
  induction pairs with
  | nil => exact fun d hd _ => hd
  | cons lh rest ih =>
    intro d hd hp
    unfold latPass
    by_cases hh : lh.2 = host
    · rw [if_pos hh]
      refine ih _ (dictSet_keys_out lh.1 k (latOf host) d hd fun hkl => ?_)
        fun h2 hm => hp h2 (List.mem_cons_of_mem lh hm)
      exact hp lh.2 (by rw [hkl]; exact List.mem_cons_self lh rest) hh
    · rw [if_neg hh]
      exact ih d hd fun h2 hm => hp h2 (List.mem_cons_of_mem lh hm)

theorem latPass_keys_nodup (latOf : PyStr → LatV) (host : PyStr) :
    ∀ (pairs : List (PyStr × PyStr)) (d : List (PyStr × LatV)),
      (d.map Prod.fst).Nodup → ((latPass latOf pairs host d).map Prod.fst).Nodup := by
  intro pairs
  induction pairs with
  | nil => exact fun d hd => hd
  | cons lh rest ih =>
    intro d hd
    unfold latPass
    by_cases hh : lh.2 = host
    · rw [if_pos hh]
      exact ih _ (dictSet_keys_nodup lh.1 (latOf host) d hd)
    · rw [if_neg hh]
      exact ih d hd

theorem latPass_sublist_fixed (latOf : PyStr → LatV) (host : PyStr) (pq : List (PyStr × LatV)) :
    ∀ (pairs : List (PyStr × PyStr)) (d : List (PyStr × LatV)),
      List.Sublist pq d →
      (∀ x ∈ pq, x.2 = latOf host ∨ ∀ h2, (x.1, h2) ∈ pairs → h2 ≠ host) →
      List.Sublist pq (latPass latOf pairs host d) := by
  intro pairs
  induction pairs with
  | nil => exact fun d hsub _ => hsub
  | cons lh rest ih =>
    intro d hsub hfix
    unfold latPass
    by_cases hh : lh.2 = host
    · rw [if_pos hh]
      refine ih _ (dictSet_sublist_fixed lh.1 (latOf host) d pq hsub fun x hx hxk => ?_)
        fun x hx => ?_
      · rcases hfix x hx with hA | hB
        · exact hA
        · exact absurd hh (hB lh.2 (by rw [hxk, Prod.mk.eta]; exact List.mem_cons_self lh rest))
      · rcases hfix x hx with hA | hB
        · exact Or.inl hA
        · exact Or.inr fun h2 hm => hB h2 (List.mem_cons_of_mem lh hm)
    · rw [if_neg hh]
      refine ih d hsub fun x hx => ?_
      rcases hfix x hx with hA | hB
      · exact Or.inl hA
      · exact Or.inr fun h2 hm => hB h2 (List.mem_cons_of_mem lh hm)

theorem latPass_insert_second (latOf : PyStr → LatV) (host l1 l2 : PyStr) :
    ∀ (pairs : List (PyStr × PyStr)) (d : List (PyStr × LatV)),
      List.Sublist [(l1, latOf host)] d →
      l2 ∉ d.map Prod.fst →
      (l2, host) ∈ pairs →
      List.Sublist [(l1, latOf host), (l2, latOf host)] (latPass latOf pairs host d) := by
  intro pairs
  induction pairs with
  | nil => intro d _ _ hm; cases hm
  | cons lh rest ih =>
    intro d hsub hout hmem
    unfold latPass
    by_cases hh : lh.2 = host
    · rw [if_pos hh]
      by_cases hl2 : lh.1 = l2
      · have hd2 : dictSet lh.1 (latOf host) d = d ++ [(l2, latOf host)] := by
          rw [hl2]
          exact dictSet_append_new l2 (latOf host) d hout
        rw [hd2]
        refine latPass_sublist_fixed latOf host _ rest (d ++ [(l2, latOf host)])
          (List.Sublist.append hsub (List.Sublist.refl _)) fun x hx => Or.inl ?_
        rcases List.mem_cons.mp hx with h | h
        · rw [h]
        · rw [List.mem_singleton.mp h]
      · refine ih _ (dictSet_sublist_fixed lh.1 (latOf host) d _ hsub fun x hx _ => ?_)
          (dictSet_keys_out lh.1 l2 (latOf host) d hout fun hc => hl2 hc.symm) ?_
        · rw [List.mem_singleton.mp hx]
        · rcases List.mem_cons.mp hmem with h | h
          · exact absurd (congrArg Prod.fst h).symm hl2
          · exact h
    · rw [if_neg hh]
      refine ih d hsub hout ?_
      rcases List.mem_cons.mp hmem with h | h
      · exact absurd ((congrArg Prod.snd h).symm.trans rfl) (by rw [← h] at hh ⊢; exact fun hc => hh hc)
      · exact h

theorem latPass_insert_both (latOf : PyStr → LatV) (host l1 l2 : PyStr) (hne : l1 ≠ l2) :
    ∀ (pre rest : List (PyStr × PyStr)) (d : List (PyStr × LatV)),
      (∀ x ∈ pre, x.1 ≠ l1 ∧ x.1 ≠ l2) →
      l1 ∉ d.map Prod.fst → l2 ∉ d.map Prod.fst →
      (l2, host) ∈ rest →
      List.Sublist [(l1, latOf host), (l2, latOf host)]
        (latPass latOf (pre ++ (l1, host) :: rest) host d) := by
  intro pre
  induction pre with
  | nil =>
    intro rest d _ h1 h2 hmem
    rw [List.nil_append]
    unfold latPass
    rw [if_pos rfl, dictSet_append_new l1 (latOf host) d h1]
    refine latPass_insert_second latOf host l1 l2 rest _
      (by simp [List.sublist_append_right]) ?_ hmem
    rw [List.map_append]
    simp only [List.mem_append, List.map_cons, List.map_nil, List.mem_singleton]
    rintro (h | h)
    · exact h2 h
    · exact hne h.symm
  | cons x pre ih =>
    intro rest d hpre h1 h2 hmem
    rw [List.cons_append]
    unfold latPass
    have hx := hpre x (List.mem_cons_self x pre)
    have hpre2 : ∀ y ∈ pre, y.1 ≠ l1 ∧ y.1 ≠ l2 := fun y hy =>
      hpre y (List.mem_cons_of_mem x hy)
    by_cases hh : x.2 = host
    · rw [if_pos hh]
      exact ih rest _ hpre2
        (dictSet_keys_out x.1 l1 (latOf host) d h1 fun hc => hx.1 hc.symm)
        (dictSet_keys_out x.1 l2 (latOf host) d h2 fun hc => hx.2 hc.symm) hmem
    · rw [if_neg hh]
      exact ih rest d hpre2 h1 h2 hmem

theorem buildFrom_keeps_out (latOf : PyStr → LatV) (all_pairs : List (PyStr × PyStr))
    (k : PyStr) :
    ∀ (hosts : List PyStr) (d : List (PyStr × LatV)),
      k ∉ d.map Prod.fst →
      (∀ host2 ∈ hosts, ∀ h2, (k, h2) ∈ all_pairs → h2 ≠ host2) →
      k ∉ (buildLatenciesFrom latOf all_pairs hosts d).map Prod.fst := by
  intro hosts
  induction hosts with
  | nil => exact fun d hd _ => hd
  | cons host hosts ih =>
    intro d hd hp
    unfold buildLatenciesFrom
    exact ih _ (latPass_keeps_out latOf host k all_pairs d hd
        (hp host (List.mem_cons_self host hosts)))
      fun h2 hm => hp h2 (List.mem_cons_of_mem host hm)

theorem buildFrom_keys_nodup (latOf : PyStr → LatV) (all_pairs : List (PyStr × PyStr)) :
    ∀ (hosts : List PyStr) (d : List (PyStr × LatV)),
      (d.map Prod.fst).Nodup →
      ((buildLatenciesFrom latOf all_pairs hosts d).map Prod.fst).Nodup := by
  intro hosts
  induction hosts with
  | nil => exact fun d hd => hd
  | cons host hosts ih =>
    intro d hd
    unfold buildLatenciesFrom
    exact ih _ (latPass_keys_nodup latOf host all_pairs d hd)

theorem buildFrom_sublist_other (latOf : PyStr → LatV) (all_pairs : List (PyStr × PyStr))
    (pq : List (PyStr × LatV)) :
    ∀ (hosts : List PyStr) (d : List (PyStr × LatV)),
      List.Sublist pq d →
      (∀ x ∈ pq, ∀ host2 ∈ hosts, ∀ h2, (x.1, h2) ∈ all_pairs → h2 ≠ host2) →
      List.Sublist pq (buildLatenciesFrom latOf all_pairs hosts d) := by
  intro hosts
  induction hosts with
  | nil => exact fun d hsub _ => hsub
  | cons host hosts ih =>
    intro d hsub hp
    unfold buildLatenciesFrom
    refine ih _ (latPass_sublist_fixed latOf host pq all_pairs d hsub fun x hx =>
        Or.inr fun h2 hm => hp x hx host (List.mem_cons_self host hosts) h2 hm)
      fun x hx host2 hm h2 hm2 => hp x hx host2 (List.mem_cons_of_mem host hm) h2 hm2

theorem buildFrom_append (latOf : PyStr → LatV) (all_pairs : List (PyStr × PyStr)) :
    ∀ (a b : List PyStr) (d : List (PyStr × LatV)),
      buildLatenciesFrom latOf all_pairs (a ++ b) d
        = buildLatenciesFrom latOf all_pairs b (buildLatenciesFrom latOf all_pairs a d) := by
  intro a
  induction a with
  | nil => exact fun b d => rfl
  | cons host rest ih =>
    intro b d
    show buildLatenciesFrom latOf all_pairs (rest ++ b) (latPass latOf all_pairs host d)
      = buildLatenciesFrom latOf all_pairs b
          (buildLatenciesFrom latOf all_pairs rest (latPass latOf all_pairs host d))
    exact ih b _

theorem buildLatencies_pair (hostsOrder : List PyStr) (latOf : PyStr → LatV)
    (all_pairs : List (PyStr × PyStr)) (l1 l2 h : PyStr) (hne : l1 ≠ l2)
    (hoPre hoPost : List PyStr)
    (hosplit : hostsOrder = hoPre ++ h :: hoPost) (hoPre_h : h ∉ hoPre) (hoPost_h : h ∉ hoPost)
    (pre rest : List (PyStr × PyStr))
    (hpsplit : all_pairs = pre ++ (l1, h) :: rest)
    (hpre : ∀ x ∈ pre, x.1 ≠ l1 ∧ x.1 ≠ l2)
    (hl2 : (l2, h) ∈ rest)
    (huniq1 : ∀ h2, (l1, h2) ∈ all_pairs → h2 = h)
    (huniq2 : ∀ h2, (l2, h2) ∈ all_pairs → h2 = h) :
    List.Sublist [(l1, latOf h), (l2, latOf h)] (buildLatencies hostsOrder latOf all_pairs) := by
  unfold buildLatencies
  rw [hosplit, buildFrom_append]
  have hd1out : ∀ k, (∀ h2, (k, h2) ∈ all_pairs → h2 = h) →
      k ∉ (buildLatenciesFrom latOf all_pairs hoPre []).map Prod.fst := by
    intro k hk
    refine buildFrom_keeps_out latOf all_pairs k hoPre [] (by simp) ?_
    intro host2 hm h2 hm2 hcontra
    rw [hk h2 hm2] at hcontra
    exact hoPre_h (hcontra ▸ hm)
  have hstep : List.Sublist [(l1, latOf h), (l2, latOf h)]
      (buildLatenciesFrom latOf all_pairs [h] (buildLatenciesFrom latOf all_pairs hoPre [])) := by
    unfold buildLatenciesFrom
    rw [hpsplit]
    exact latPass_insert_both latOf h l1 l2 hne pre rest _ hpre
      (by rw [← hpsplit]; exact hd1out l1 huniq1)
      (by rw [← hpsplit]; exact hd1out l2 huniq2) hl2
  have hfin := buildFrom_sublist_other latOf all_pairs [(l1, latOf h), (l2, latOf h)] hoPost
    (buildLatenciesFrom latOf all_pairs [h] (buildLatenciesFrom latOf all_pairs hoPre []))
    hstep ?_
  · rw [show (h :: hoPost : List PyStr) = [h] ++ hoPost from rfl, buildFrom_append]
    exact hfin
  · intro x hx host2 hm h2 hm2 hcontra
    have hxk : x.1 = l1 ∨ x.1 = l2 := by
      rcases List.mem_cons.mp hx with h1 | h1
      · exact Or.inl (congrArg Prod.fst h1)
      · exact Or.inr (congrArg Prod.fst (List.mem_singleton.mp h1))
    rcases hxk with h1 | h1
    · rw [h1] at hm2
      rw [huniq1 h2 hm2] at hcontra
      exact hoPost_h (hcontra ▸ hm)
    · rw [h1] at hm2
      rw [huniq2 h2 hm2] at hcontra
      exact hoPost_h (hcontra ▸ hm)

/-- C2 counterexample: two links with equal (`+inf`) latency on different
hosts.  The `latencies` dict is filled host-by-host in the order the host
*set* happens to enumerate (a nondeterministic order under Python's
randomized string hashing) — with enumeration order `[h2, h1]` the link
discovered first (`l1`) lands after `l2`, and the stable sort keeps that
order, so the ranked output is `[l2, l1]`, not discovery order. -/
theorem ranked_tie_not_discovery_order :
    sorted_links [pstr "h2", pstr "h1"] (fun _ => LatV.inf)
        [(pstr "l1", pstr "h1"), (pstr "l2", pstr "h2")]
      = [pstr "l2", pstr "l1"]
    ∧ ¬ List.Sublist [pstr "l1", pstr "l2"]
        (sorted_links [pstr "h2", pstr "h1"] (fun _ => LatV.inf)
          [(pstr "l1", pstr "h1"), (pstr "l2", pstr "h2")]) := by
  exact ⟨by decide, by decide⟩

/-- C2 (amended): the ranking sort is stable with ties broken by the
latency-dict insertion order; for two links sharing the same probed host —
which always carry the same latency — that insertion order is the discovery
order, so the earlier-discovered link precedes the other in the ranked
output.  (Across distinct hosts the tie order follows the arbitrary host-set
enumeration order instead, per the counterexample.) -/
theorem same_host_ties_keep_discovery_order (hostsOrder : List PyStr) (latOf : PyStr → LatV)
    (all_pairs : List (PyStr × PyStr)) (l1 l2 h : PyStr) (hne : l1 ≠ l2)
    (hnodup : hostsOrder.Nodup) (hmem : h ∈ hostsOrder)
    (pre rest : List (PyStr × PyStr))
    (hpsplit : all_pairs = pre ++ (l1, h) :: rest)
    (hpre : ∀ x ∈ pre, x.1 ≠ l1 ∧ x.1 ≠ l2)
    (hl2 : (l2, h) ∈ rest)
    (huniq1 : ∀ h2, (l1, h2) ∈ all_pairs → h2 = h)
    (huniq2 : ∀ h2, (l2, h2) ∈ all_pairs → h2 = h) :
    List.Sublist [l1, l2] (sorted_links hostsOrder latOf all_pairs) := by
  obtain ⟨hoPre, hoPost, rfl⟩ := List.append_of_mem hmem
  have hnd := hnodup
  rw [List.nodup_append] at hnd
  have hoPre_h : h ∉ hoPre := fun hc => hnd.2.2 hc (List.mem_cons_self h hoPost)
  have hoPost_h : h ∉ hoPost := by
    have := hnd.2.1
    rw [List.nodup_cons] at this
    exact this.1
  have hdict := buildLatencies_pair (hoPre ++ h :: hoPost) latOf all_pairs l1 l2 h hne
    hoPre hoPost rfl hoPre_h hoPost_h pre rest hpsplit hpre hl2 huniq1 huniq2
  have hsorted := latSort_stable (l1, latOf h) (l2, latOf h)
    (buildLatencies (hoPre ++ h :: hoPost) latOf all_pairs) hdict
    (latLt_self_eq_false (latOf h))
  have hmap := hsorted.map Prod.fst
  simpa [sorted_links] using hmap

/-- C2 (amended) witness: a concrete run with two same-host links discovered
in order. -/
theorem same_host_ties_keep_discovery_order_witness :
    (pstr "l1" ≠ pstr "l2"
      ∧ ([pstr "h0", pstr "h"] : List PyStr).Nodup
      ∧ pstr "h" ∈ [pstr "h0", pstr "h"]
      ∧ ([(pstr "l0", pstr "h0"), (pstr "l1", pstr "h"), (pstr "l2", pstr "h")]
          : List (PyStr × PyStr))
          = [(pstr "l0", pstr "h0")] ++ (pstr "l1", pstr "h") :: [(pstr "l2", pstr "h")]
      ∧ (∀ x ∈ [(pstr "l0", pstr "h0")], x.1 ≠ pstr "l1" ∧ x.1 ≠ pstr "l2")
      ∧ (pstr "l2", pstr "h") ∈ [(pstr "l2", pstr "h")]
      ∧ (∀ h2, (pstr "l1", h2) ∈
          [(pstr "l0", pstr "h0"), (pstr "l1", pstr "h"), (pstr "l2", pstr "h")] → h2 = pstr "h")
      ∧ (∀ h2, (pstr "l2", h2) ∈
          [(pstr "l0", pstr "h0"), (pstr "l1", pstr "h"), (pstr "l2", pstr "h")] → h2 = pstr "h"))
    ∧ List.Sublist [pstr "l1", pstr "l2"]
        (sorted_links [pstr "h0", pstr "h"] (fun _ => LatV.inf)
          [(pstr "l0", pstr "h0"), (pstr "l1", pstr "h"), (pstr "l2", pstr "h")]) := by
  refine ⟨⟨by decide, by decide, by decide, by decide, by decide, by decide, (by
    intro h2 hm
    rcases List.mem_cons.mp hm with he | hm
    · have hfst : pstr "l1" = pstr "l0" := congrArg Prod.fst he
      exact absurd hfst (by decide)
    rcases List.mem_cons.mp hm with he | hm
    · exact congrArg Prod.snd he
    rcases List.mem_cons.mp hm with he | hm
    · have hfst : pstr "l1" = pstr "l2" := congrArg Prod.fst he
      exact absurd hfst (by decide)
    cases hm), (by
    intro h2 hm
    rcases List.mem_cons.mp hm with he | hm
    · have hfst : pstr "l2" = pstr "l0" := congrArg Prod.fst he
      exact absurd hfst (by decide)
    rcases List.mem_cons.mp hm with he | hm
    · have hfst : pstr "l2" = pstr "l1" := congrArg Prod.fst he
      exact absurd hfst (by decide)
    rcases List.mem_cons.mp hm with he | hm
    · exact congrArg Prod.snd he
    cases hm)⟩, ?_⟩
  refine same_host_ties_keep_discovery_order [pstr "h0", pstr "h"] (fun _ => LatV.inf)
    [(pstr "l0", pstr "h0"), (pstr "l1", pstr "h"), (pstr "l2", pstr "h")]
    (pstr "l1") (pstr "l2") (pstr "h") (by decide) (by decide) (by decide)
    [(pstr "l0", pstr "h0")] [(pstr "l2", pstr "h")] (by decide) (by decide) (by decide) ?u1 ?u2
  case u1 =>
    intro h2 hm
    rcases List.mem_cons.mp hm with he | hm
    · have hfst : pstr "l1" = pstr "l0" := congrArg Prod.fst he
      exact absurd hfst (by decide)
    rcases List.mem_cons.mp hm with he | hm
    · exact congrArg Prod.snd he
    rcases List.mem_cons.mp hm with he | hm
    · have hfst : pstr "l1" = pstr "l2" := congrArg Prod.fst he
      exact absurd hfst (by decide)
    cases hm
  case u2 =>
    intro h2 hm
    rcases List.mem_cons.mp hm with he | hm
    · have hfst : pstr "l2" = pstr "l0" := congrArg Prod.fst he
      exact absurd hfst (by decide)
    rcases List.mem_cons.mp hm with he | hm
    · have hfst : pstr "l2" = pstr "l1" := congrArg Prod.fst he
      exact absurd hfst (by decide)
    rcases List.mem_cons.mp hm with he | hm
    · exact congrArg Prod.snd he
    cases hm

/-- C3 (amended): the per-country ranked output carries each distinct link
string at most once — the `latencies` dict is keyed by the full link string,
so exact-string duplicates collapse (probing is separately deduplicated by
host via the host set). -/
theorem sorted_links_nodup (hostsOrder : List PyStr) (latOf : PyStr → LatV)
    (all_pairs : List (PyStr × PyStr)) :
    (sorted_links hostsOrder latOf all_pairs).Nodup := by
  have hkeys : ((buildLatencies hostsOrder latOf all_pairs).map Prod.fst).Nodup :=
    buildFrom_keys_nodup latOf all_pairs hostsOrder [] (by simp)
  have hperm := (latSort_perm (buildLatencies hostsOrder latOf all_pairs)).map Prod.fst
  unfold sorted_links
  exact hperm.nodup_iff.mpr hkeys

/-- C6 counterexample: the plaintext credential segment `"YT:pi"` (method
`"YT"`, password `"pi"`) happens to base64-decode — Python's forgiving
decoder drops the colon — to `"a:b"`, which contains a colon, so the renamer
re-encodes the wrong credentials `a`/`b` instead of `YT`/`pi`. -/
theorem ss_plaintext_miscredential :
    b64_decode (pstr "YT:pi") = some (pstr "a:b")
    ∧ rename_shadowsocks (pstr "ss://YT:pi@h:80#x") (pstr "1.2.3.4") (pstr "443") (pstr "t")
      = pstr "ss://YTpi@1.2.3.4:443#t"
    ∧ b64_encode (pstr "YT:pi") = some (pstr "WVQ6cGk=")
    ∧ rename_shadowsocks (pstr "ss://YT:pi@h:80#x") (pstr "1.2.3.4") (pstr "443") (pstr "t")
      ≠ pstr "ss://WVQ6cGk=@1.2.3.4:443#t" := by decide

theorem isPrefixOf_append_self (a t : List Nat) : a.isPrefixOf (a ++ t) = true := by
  induction a with
  | nil => simp [List.isPrefixOf]
  | cons c a2 ih => simp [List.isPrefixOf, ih]

theorem pySplit1_cons_self (sep t : PyStr) (h : sep ≠ []) :
    pySplit1 sep (sep ++ t) = ([], some t) := by
  rcases sep with _ | ⟨c, s2⟩
  · exact absurd rfl h
  · unfold pySplit1
    rw [List.cons_append]
    have hpre : (c :: s2).isPrefixOf (c :: (s2 ++ t)) = true := by
      have := isPrefixOf_append_self (c :: s2) t
      rwa [List.cons_append] at this
    rw [hpre]
    have hdrop : List.drop (c :: s2).length (c :: (s2 ++ t)) = t := by
      show List.drop (s2.length + 1) (c :: (s2 ++ t)) = t
      rw [List.drop_succ_cons, List.drop_left]
    simp [hdrop]

theorem pySplit1_single_mid (c : Nat) (a b : PyStr) (h : c ∉ a) :
    pySplit1 [c] (a ++ c :: b) = (a, some b) := by
  induction a with
  | nil => simpa using pySplit1_cons_self [c] b (by simp)
  | cons x a2 ih =>
    have hx : ¬ c = x := fun hc => h (by simp [hc])
    unfold pySplit1
    rw [List.cons_append]
    have hp : List.isPrefixOf [c] (x :: (a2 ++ c :: b)) = false := by
      simp [List.isPrefixOf, hx]
    rw [hp]
    simp only [Bool.false_eq_true, if_false]
    rw [ih fun hm => h (List.mem_cons_of_mem x hm)]

theorem pySplit1_single_none (c : Nat) (s : PyStr) (h : c ∉ s) :
    pySplit1 [c] s = (s, none) := by
  induction s with
  | nil => rfl
  | cons x t ih =>
    have hx : ¬ c = x := fun hc => h (by simp [hc])
    unfold pySplit1
    have hp : List.isPrefixOf [c] (x :: t) = false := by simp [List.isPrefixOf, hx]
    rw [hp]
    simp only [Bool.false_eq_true, if_false]
    rw [ih fun hm => h (List.mem_cons_of_mem x hm)]

theorem isSubstr_single_eq_false (c : Nat) (s : PyStr) (h : c ∉ s) :
    isSubstr [c] s = false := by
  induction s with
  | nil => rfl
  | cons x t ih =>
    have hx : ¬ c = x := fun hc => h (by simp [hc])
    unfold isSubstr
    have hp : List.isPrefixOf [c] (x :: t) = false := by simp [List.isPrefixOf, hx]
    rw [hp, ih fun hm => h (List.mem_cons_of_mem x hm)]
    rfl

/-- C6 (amended): for a shadowsocks link with plaintext `method:password`
credentials, the renamer recovers the method and password and re-emits
`ss://b64(method:password)@<ip>:<port>#<quoted tag>` — provided the base64
decode attempt on the raw credential segment raises or yields no colon;
when that decode spuriously yields a colon-bearing string (see the
counterexample), the decoded string's pieces are used instead. -/
theorem ss_plaintext_rename (method pwd hp ip port tag enc qt : PyStr)
    (hm : (58 : Nat) ∉ method)
    (hat : (64 : Nat) ∉ method ∧ (64 : Nat) ∉ pwd)
    (hhash : (35 : Nat) ∉ method ∧ (35 : Nat) ∉ pwd ∧ (35 : Nat) ∉ hp)
    (hspurious : b64_decode (method ++ 58 :: pwd) = none
      ∨ ∀ d, b64_decode (method ++ 58 :: pwd) = some d → (58 : Nat) ∉ d)
    (henc : b64_encode (method ++ 58 :: pwd) = some enc)
    (htag : quote tag = some qt) :
    rename_shadowsocks (pstr "ss://" ++ (method ++ 58 :: pwd ++ 64 :: hp)) ip port tag
      = pstr "ss://" ++ enc ++ 64 :: (ip ++ 58 :: (port ++ 35 :: qt)) := by
  have hsplit : pySplit1 (pstr "ss://") (pstr "ss://" ++ (method ++ 58 :: pwd ++ 64 :: hp))
      = ([], some (method ++ 58 :: pwd ++ 64 :: hp)) :=
    pySplit1_cons_self (pstr "ss://") _ (by decide)
  have hnohash : (35 : Nat) ∉ method ++ 58 :: pwd ++ 64 :: hp := by
    intro hmem
    have hflat : (35 : Nat) ∈ method ∨ (35 : Nat) = 58 ∨ (35 : Nat) ∈ pwd
        ∨ (35 : Nat) = 64 ∨ (35 : Nat) ∈ hp := by
      simpa [List.mem_append, List.mem_cons, or_assoc] using hmem
    rcases hflat with h | h | h | h | h
    · exact hhash.1 h
    · omega
    · exact hhash.2.1 h
    · omega
    · exact hhash.2.2 h
  have hfrag : isSubstr [35] (method ++ 58 :: pwd ++ 64 :: hp) = false :=
    isSubstr_single_eq_false 35 _ hnohash
  have hbody : (method ++ 58 :: pwd) ++ 64 :: hp = method ++ 58 :: pwd ++ 64 :: hp := by
    simp
  have hnoat : (64 : Nat) ∉ method ++ 58 :: pwd := by
    intro hmem
    have hflat : (64 : Nat) ∈ method ∨ (64 : Nat) = 58 ∨ (64 : Nat) ∈ pwd := by
      simpa [List.mem_append, List.mem_cons, or_assoc] using hmem
    rcases hflat with h | h | h
    · exact hat.1 h
    · omega
    · exact hat.2 h
  have hatsplit : pySplit1 [64] (method ++ 58 :: pwd ++ 64 :: hp)
      = (method ++ 58 :: pwd, some hp) := by
    rw [← hbody]
    exact pySplit1_single_mid 64 _ hp hnoat
  have hplain : pySplit1 [58] (method ++ 58 :: pwd) = (method, some pwd) :=
    pySplit1_single_mid 58 method pwd hm
  have hcreds : ssCreds (method ++ 58 :: pwd ++ 64 :: hp) = some (method, pwd) := by
    unfold ssCreds
    rw [hatsplit]
    dsimp only
    rcases hspurious with hdec | hdec
    · rw [hdec, hplain]
    · rcases hval : b64_decode (method ++ 58 :: pwd) with _ | d
      · dsimp only
        rw [hplain]
      · dsimp only
        rw [pySplit1_single_none 58 d (hdec d hval)]
        dsimp only
        rw [hplain]
  unfold rename_shadowsocks ssRewrite
  rw [hsplit]
  simp only [Option.bind_eq_bind, Option.some_bind, hfrag, Bool.false_eq_true, if_false,
    hcreds, henc, htag]
  rfl

/-- C6 (amended) witness: the plaintext-credential link
`ss://aes-256-gcm:pw@h:80` (whose credential segment base64-decodes to a
colon-free string). -/
theorem ss_plaintext_rename_witness :
    ((58 : Nat) ∉ pstr "aes-256-gcm"
      ∧ ((64 : Nat) ∉ pstr "aes-256-gcm" ∧ (64 : Nat) ∉ pstr "pw")
      ∧ ((35 : Nat) ∉ pstr "aes-256-gcm" ∧ (35 : Nat) ∉ pstr "pw" ∧ (35 : Nat) ∉ pstr "h:80")
      ∧ b64_encode (pstr "aes-256-gcm" ++ 58 :: pstr "pw") = some (pstr "YWVzLTI1Ni1nY206cHc=")
      ∧ quote (pstr "t") = some (pstr "t"))
    ∧ rename_shadowsocks
        (pstr "ss://" ++ (pstr "aes-256-gcm" ++ 58 :: pstr "pw" ++ 64 :: pstr "h:80"))
        (pstr "1.2.3.4") (pstr "443") (pstr "t")
      = pstr "ss://" ++ pstr "YWVzLTI1Ni1nY206cHc="
          ++ 64 :: (pstr "1.2.3.4" ++ 58 :: (pstr "443" ++ 35 :: pstr "t")) := by
  refine ⟨⟨by decide, ⟨by decide, by decide⟩, ⟨by decide, by decide, by decide⟩,
    by decide, by decide⟩, ?_⟩
  refine ss_plaintext_rename (pstr "aes-256-gcm") (pstr "pw") (pstr "h:80") (pstr "1.2.3.4")
    (pstr "443") (pstr "t") (pstr "YWVzLTI1Ni1nY206cHc=") (pstr "t")
    (by decide) ⟨by decide, by decide⟩ ⟨by decide, by decide, by decide⟩
    (Or.inr fun d hd => ?_) (by decide) (by decide)
  have hd0 : b64_decode (pstr "aes-256-gcm" ++ 58 :: pstr "pw") = some [105, 54, 28] := by
    decide
  rw [hd0] at hd
  obtain rfl : [105, 54, 28] = d := Option.some.inj hd
  decide

theorem b64Idx_b64Chr (v : Nat) (h : v < 64) : b64Idx (b64Chr v) = some v := by
  unfold b64Chr b64Idx
  split_ifs <;> simp_all <;> omega

theorem b64Chr_ne_pad (v : Nat) (h : v < 64) : b64Chr v ≠ 61 := by
  intro hc
  have hsome := b64Idx_b64Chr v h
  rw [hc] at hsome
  simp [b64Idx] at hsome

theorem a2bRun_step0 (v : Nat) (hv : v < 64) (rest : List Nat) (acc pads : Nat)
    (out : List Nat) : a2bRun (b64Chr v :: rest) 0 acc pads out = a2bRun rest 1 v 0 out := by
  conv_lhs => unfold a2bRun
  rw [if_neg (b64Chr_ne_pad v hv), b64Idx_b64Chr v hv]

theorem a2bRun_step1 (v : Nat) (hv : v < 64) (rest : List Nat) (acc pads : Nat)
    (out : List Nat) :
    a2bRun (b64Chr v :: rest) 1 acc pads out = a2bRun rest 2 (acc * 64 + v) 0 out := by
  conv_lhs => unfold a2bRun
  rw [if_neg (b64Chr_ne_pad v hv), b64Idx_b64Chr v hv]

theorem a2bRun_step2 (v : Nat) (hv : v < 64) (rest : List Nat) (acc pads : Nat)
    (out : List Nat) :
    a2bRun (b64Chr v :: rest) 2 acc pads out = a2bRun rest 3 (acc * 64 + v) 0 out := by
  conv_lhs => unfold a2bRun
  rw [if_neg (b64Chr_ne_pad v hv), b64Idx_b64Chr v hv]

theorem a2bRun_step3 (v : Nat) (hv : v < 64) (rest : List Nat) (acc pads : Nat)
    (out : List Nat) :
    a2bRun (b64Chr v :: rest) 3 acc pads out
      = a2bRun rest 0 0 0
          (out ++ [(acc * 64 + v) / 65536, (acc * 64 + v) / 256 % 256, (acc * 64 + v) % 256]) := by
  conv_lhs => unfold a2bRun
  rw [if_neg (b64Chr_ne_pad v hv), b64Idx_b64Chr v hv]

theorem a2b_enc_exact : ∀ (bs : List Nat), bs.all (· < 256) = true → ∀ out : List Nat,
    a2bRun (b64encodeBytes bs) 0 0 0 out = some (out ++ bs)
  | [], _, out => by simp [b64encodeBytes, a2bRun]
  | [b1], h, out => by
    have hb1 : b1 < 256 := by simpa using h
    unfold b64encodeBytes
    rw [a2bRun_step0 _ (by omega), a2bRun_step1 _ (by omega)]
    have e : (b1 / 4 * 64 + b1 % 4 * 16) / 16 = b1 := by omega
    simp [a2bRun, padFlush, e]
  | [b1, b2], h, out => by
    have hb1 : b1 < 256 := by simp at h; omega
    have hb2 : b2 < 256 := by simp at h; omega
    unfold b64encodeBytes
    rw [a2bRun_step0 _ (by omega), a2bRun_step1 _ (by omega), a2bRun_step2 _ (by omega)]
    have e1 : ((b1 / 4 * 64 + (b1 % 4 * 16 + b2 / 16)) * 64 + b2 % 16 * 4) / 1024 = b1 := by
      omega
    have e2 : ((b1 / 4 * 64 + (b1 % 4 * 16 + b2 / 16)) * 64 + b2 % 16 * 4) / 4 % 256 = b2 := by
      omega
    simp [a2bRun, padFlush, e1, e2]
  | b1 :: b2 :: b3 :: rest, h, out => by
    have hb : b1 < 256 ∧ b2 < 256 ∧ b3 < 256 ∧ rest.all (· < 256) = true := by
      simp at h
      exact ⟨h.1, h.2.1, h.2.2.1, by simpa using h.2.2.2⟩
    unfold b64encodeBytes
    simp only
    rw [a2bRun_step0 _ (by omega), a2bRun_step1 _ (by omega), a2bRun_step2 _ (by omega),
      a2bRun_step3 _ (by omega)]
    rw [a2b_enc_exact rest hb.2.2.2]
    have hn : (((b1 * 65536 + b2 * 256 + b3) / 262144 * 64
          + (b1 * 65536 + b2 * 256 + b3) / 4096 % 64) * 64
          + (b1 * 65536 + b2 * 256 + b3) / 64 % 64) * 64
          + (b1 * 65536 + b2 * 256 + b3) % 64 = b1 * 65536 + b2 * 256 + b3 := by omega
    rw [hn]
    have e1 : (b1 * 65536 + b2 * 256 + b3) / 65536 = b1 := by omega
    have e2 : (b1 * 65536 + b2 * 256 + b3) / 256 % 256 = b2 := by omega
    have e3 : (b1 * 65536 + b2 * 256 + b3) % 256 = b3 := by omega
    rw [e1, e2, e3, List.append_assoc]
    rfl

theorem a2b_enc_junk : ∀ (bs : List Nat), bs.all (· < 256) = true → bs.length % 3 ≠ 0 →
    ∀ (tail out : List Nat),
    a2bRun (b64encodeBytes bs ++ tail) 0 0 0 out = some (out ++ bs)
  | [], _, hmod, _, _ => absurd rfl hmod
  | [b1], h, _, tail, out => by
    have hb1 : b1 < 256 := by simpa using h
    unfold b64encodeBytes
    rw [List.cons_append, List.cons_append, List.cons_append, List.cons_append]
    rw [a2bRun_step0 _ (by omega), a2bRun_step1 _ (by omega)]
    have e : (b1 / 4 * 64 + b1 % 4 * 16) / 16 = b1 := by omega
    simp [a2bRun, padFlush, e]
  | [b1, b2], h, _, tail, out => by
    have hb1 : b1 < 256 := by simp at h; omega
    have hb2 : b2 < 256 := by simp at h; omega
    unfold b64encodeBytes
    rw [List.cons_append, List.cons_append, List.cons_append, List.cons_append]
    rw [a2bRun_step0 _ (by omega), a2bRun_step1 _ (by omega), a2bRun_step2 _ (by omega)]
    have e1 : ((b1 / 4 * 64 + (b1 % 4 * 16 + b2 / 16)) * 64 + b2 % 16 * 4) / 1024 = b1 := by
      omega
    have e2 : ((b1 / 4 * 64 + (b1 % 4 * 16 + b2 / 16)) * 64 + b2 % 16 * 4) / 4 % 256 = b2 := by
      omega
    simp [a2bRun, padFlush, e1, e2]
  | b1 :: b2 :: b3 :: rest, h, hmod, tail, out => by
    have hb : b1 < 256 ∧ b2 < 256 ∧ b3 < 256 ∧ rest.all (· < 256) = true := by
      simp at h
      exact ⟨h.1, h.2.1, h.2.2.1, by simpa using h.2.2.2⟩
    have hmod2 : rest.length % 3 ≠ 0 := by
      simp only [List.length_cons] at hmod
      omega
    unfold b64encodeBytes
    simp only [List.cons_append]
    rw [a2bRun_step0 _ (by omega), a2bRun_step1 _ (by omega), a2bRun_step2 _ (by omega),
      a2bRun_step3 _ (by omega)]
    rw [a2b_enc_junk rest hb.2.2.2 hmod2 tail]
    have hn : (((b1 * 65536 + b2 * 256 + b3) / 262144 * 64
          + (b1 * 65536 + b2 * 256 + b3) / 4096 % 64) * 64
          + (b1 * 65536 + b2 * 256 + b3) / 64 % 64) * 64
          + (b1 * 65536 + b2 * 256 + b3) % 64 = b1 * 65536 + b2 * 256 + b3 := by omega
    rw [hn]
    have e1 : (b1 * 65536 + b2 * 256 + b3) / 65536 = b1 := by omega
    have e2 : (b1 * 65536 + b2 * 256 + b3) / 256 % 256 = b2 := by omega
    have e3 : (b1 * 65536 + b2 * 256 + b3) % 256 = b3 := by omega
    rw [e1, e2, e3, List.append_assoc]
    rfl

theorem b64encodeBytes_len_mod4 : ∀ bs : List Nat, (b64encodeBytes bs).length % 4 = 0
  | [] => rfl
  | [_] => by simp [b64encodeBytes]
  | [_, _] => by simp [b64encodeBytes]
  | _ :: _ :: _ :: rest => by
    unfold b64encodeBytes
    simp only [List.length_cons]
    have := b64encodeBytes_len_mod4 rest
    omega

theorem b64decode_encode_bytes (bs : List Nat) (h : bs.all (· < 256) = true) :
    b64_decode (b64encodeBytes bs) = some (utf8IgnoreDecode bs) := by
  unfold b64_decode
  rw [b64encodeBytes_len_mod4 bs]
  simp only [Nat.sub_zero, Nat.mod_self, List.replicate_zero, List.append_nil]
  unfold b64decodeBytes
  rw [a2b_enc_exact bs h []]
  rfl

theorem b64decode_encode_junk (bs tail : List Nat) (h : bs.all (· < 256) = true)
    (hmod : bs.length % 3 ≠ 0) :
    b64_decode (b64encodeBytes bs ++ tail) = some (utf8IgnoreDecode bs) := by
  unfold b64_decode b64decodeBytes
  rw [List.append_assoc, a2b_enc_junk bs h hmod _ []]
  rfl

theorem utf8Encode_ascii (s : PyStr) (h : s.all (· < 128) = true) : utf8Encode s = some s := by
  induction s with
  | nil => rfl
  | cons c t ih =>
    simp only [List.all_cons, Bool.and_eq_true, decide_eq_true_eq] at h
    have hc : utf8Char c = some [c] := by
      unfold utf8Char
      rw [if_pos (by omega : c < 0x80)]
    simp [utf8Encode, hc, ih (by simpa using h.2)]

theorem utf8IgnoreGo_ascii (s : PyStr) (h : s.all (· < 128) = true) :
    ∀ fuel, s.length ≤ fuel → utf8IgnoreGo fuel s = s := by
  induction s with
  | nil => intro fuel _; cases fuel <;> rfl
  | cons c t ih =>
    intro fuel hf
    simp only [List.all_cons, Bool.and_eq_true, decide_eq_true_eq] at h
    rcases fuel with _ | f
    · simp at hf
    · have hstep : utf8Step c t = some (c, 0) := by
        unfold utf8Step
        rw [if_pos (by omega : c < 0x80)]
      simp only [utf8IgnoreGo, hstep, List.drop_zero]
      rw [ih (by simpa using h.2) f (by simpa using hf)]

theorem utf8IgnoreDecode_ascii (s : PyStr) (h : s.all (· < 128) = true) :
    utf8IgnoreDecode s = s :=
  utf8IgnoreGo_ascii s h s.length (Nat.le_refl _)

theorem ascii_lt256 (s : PyStr) (h : s.all (· < 128) = true) : s.all (· < 256) = true := by
  simp only [List.all_eq_true, decide_eq_true_eq] at h ⊢
  exact fun c hc => Nat.lt_of_lt_of_le (h c hc) (by omega)

theorem natReprAux_zero : ∀ (f : Nat) (acc : PyStr), natReprAux f 0 acc = acc
  | 0, _ => rfl
  | _ + 1, _ => rfl

theorem natReprAux_digits : ∀ (f n : Nat) (acc : PyStr), (∀ c ∈ acc, 48 ≤ c ∧ c ≤ 57) →
    ∀ c ∈ natReprAux f n acc, 48 ≤ c ∧ c ≤ 57
  | 0, _, _, h => by simpa [natReprAux] using h
  | _ + 1, 0, _, h => by simpa [natReprAux] using h
  | f + 1, n + 1, acc, h => by
    rw [natReprAux]
    refine natReprAux_digits f ((n + 1) / 10) _ ?_
    intro c hc
    rcases List.mem_cons.mp hc with rfl | hc
    · constructor <;> omega
    · exact h c hc

theorem natReprAux_append : ∀ (f n : Nat) (acc : PyStr),
    natReprAux f n acc = natReprAux f n [] ++ acc
  | 0, _, acc => by simp [natReprAux]
  | _ + 1, 0, acc => by simp [natReprAux]
  | f + 1, n + 1, acc => by
    rw [natReprAux, natReprAux_append f ((n + 1) / 10) (((n + 1) % 10 + 48) :: acc)]
    conv_rhs => rw [natReprAux, natReprAux_append f ((n + 1) / 10) [(n + 1) % 10 + 48]]
    rw [List.append_assoc]
    rfl

theorem natReprAux_head : ∀ (f n : Nat), 0 < n → n ≤ f →
    ∃ d t, natReprAux f n [] = d :: t ∧ 49 ≤ d ∧ d ≤ 57
  | 0, _, hn, hnf => ((by omega : False)).elim
  | _ + 1, 0, hn, _ => ((by omega : False)).elim
  | f + 1, n + 1, _, hnf => by
    rw [natReprAux, natReprAux_append]
    by_cases hq : (n + 1) / 10 = 0
    · refine ⟨(n + 1) % 10 + 48, [], ?_, by omega, by omega⟩
      rw [hq]
      simp [natReprAux_zero]
    · obtain ⟨d, t, hdt, hd1, hd2⟩ := natReprAux_head f ((n + 1) / 10) (by omega) (by omega)
      exact ⟨d, t ++ [(n + 1) % 10 + 48], by rw [hdt]; rfl, hd1, hd2⟩

theorem natReprAux_foldl : ∀ (f n : Nat), 0 < n → n ≤ f → ∀ a : Nat,
    List.foldl (fun a d => a * 10 + (d - 48)) a (natReprAux f n [])
      = a * 10 ^ (natReprAux f n []).length + n
  | 0, _, hn, hnf, _ => ((by omega : False)).elim
  | _ + 1, 0, hn, _, _ => ((by omega : False)).elim
  | f + 1, n + 1, _, hnf, a => by
    rw [natReprAux, natReprAux_append]
    by_cases hq : (n + 1) / 10 = 0
    · rw [hq]
      simp [natReprAux_zero]
      omega
    · have ih := natReprAux_foldl f ((n + 1) / 10) (by omega) (by omega) a
      rw [List.foldl_append, ih]
      simp only [List.foldl_cons, List.foldl_nil, List.length_append, List.length_cons,
        List.length_nil]
      rw [pow_succ]
      have hd : (n + 1) % 10 + 48 - 48 = (n + 1) % 10 := by omega
      rw [hd]
      have expand : (a * 10 ^ (natReprAux f ((n + 1) / 10) []).length + (n + 1) / 10) * 10
            + (n + 1) % 10
          = a * (10 ^ (natReprAux f ((n + 1) / 10) []).length * 10)
            + ((n + 1) / 10 * 10 + (n + 1) % 10) := by ring
      rw [expand]
      congr 1
      omega

theorem takeWhile_all_append (p : Nat → Bool) (xs rest : List Nat)
    (h : ∀ c ∈ xs, p c = true) :
    (xs ++ rest).takeWhile p = xs ++ rest.takeWhile p
    ∧ (xs ++ rest).dropWhile p = rest.dropWhile p := by
  induction xs with
  | nil => simp
  | cons x t ih =>
    have hx := h x (List.mem_cons_self x t)
    have iht := ih fun c hc => h c (List.mem_cons_of_mem x hc)
    simp [List.takeWhile, List.dropWhile, hx, iht.1, iht.2]

theorem parseNumFinish_safe (i : Int) (rest : PyStr)
    (hsafe : ∀ c ∈ rest.take 1, ¬(48 ≤ c ∧ c ≤ 57) ∧ c ≠ 46 ∧ c ≠ 101 ∧ c ≠ 69) :
    parseNumFinish i rest = some (.jnum i, rest) := by
  unfold parseNumFinish
  rcases rest with _ | ⟨c, t⟩
  · rfl
  · have hc := hsafe c (by simp)
    dsimp only
    rw [if_neg]
    rintro (h | h | h)
    · exact hc.2.1 h
    · exact hc.2.2.1 h
    · exact hc.2.2.2 h

theorem parseNumCore_natRepr (n : Nat) (rest : PyStr)
    (hdig : ∀ c ∈ rest.take 1, ¬(48 ≤ c ∧ c ≤ 57)) :
    parseNumCore (natRepr n ++ rest) = some (n, rest) := by
  have htw : rest.takeWhile (fun d => 48 ≤ d && d ≤ 57) = []
      ∧ rest.dropWhile (fun d => 48 ≤ d && d ≤ 57) = rest := by
    rcases rest with _ | ⟨r, t⟩
    · exact ⟨rfl, rfl⟩
    · have hr := hdig r (by simp)
      have hrb : (decide (48 ≤ r) && decide (r ≤ 57)) = false := by
        rcases Nat.lt_or_ge r 48 with h | h
        · simp [Nat.not_le.mpr h]
        · have h57 : ¬ r ≤ 57 := fun hle => hr ⟨h, hle⟩
          simp [h57]
      constructor
      · simp [List.takeWhile, hrb]
      · simp [List.dropWhile, hrb]
  rcases Nat.eq_zero_or_pos n with rfl | hn
  · show parseNumCore (48 :: rest) = some (0, rest)
    simp [parseNumCore]
  · obtain ⟨d, t, hdt, hd1, hd2⟩ := natReprAux_head n n hn (Nat.le_refl n)
    have hnr : natRepr n = d :: t := by
      unfold natRepr
      rw [if_neg (by omega), hdt]
    rw [hnr]
    have halldig : ∀ c ∈ d :: t, (fun d => 48 ≤ d && d ≤ 57) c = true := by
      intro c hc
      have := natReprAux_digits n n [] (by simp) c (by rw [hdt]; exact hc)
      simp only [Bool.and_eq_true, decide_eq_true_eq]
      omega
    have htake := takeWhile_all_append (fun d => 48 ≤ d && d ≤ 57) (d :: t) rest halldig
    have htake1 : List.takeWhile (fun d => 48 ≤ d && d ≤ 57) (d :: (t ++ rest))
        = (d :: t) ++ List.takeWhile (fun d => 48 ≤ d && d ≤ 57) rest := htake.1
    have hdrop1 : List.dropWhile (fun d => 48 ≤ d && d ≤ 57) (d :: (t ++ rest))
        = List.dropWhile (fun d => 48 ≤ d && d ≤ 57) rest := htake.2
    show parseNumCore (d :: (t ++ rest)) = some (n, rest)
    unfold parseNumCore
    dsimp only
    rw [if_neg (by omega), if_pos ⟨hd1, hd2⟩, htake1, hdrop1, htw.1, htw.2, List.append_nil]
    have hfold := natReprAux_foldl n n hn (Nat.le_refl n) 0
    rw [hdt] at hfold
    rw [hfold]
    simp

theorem parseNum_intRepr (i : Int) (rest : PyStr)
    (hsafe : ∀ c ∈ rest.take 1, ¬(48 ≤ c ∧ c ≤ 57) ∧ c ≠ 46 ∧ c ≠ 101 ∧ c ≠ 69) :
    parseNum (intRepr i ++ rest) = some (.jnum i, rest) := by
  have hdig : ∀ c ∈ rest.take 1, ¬(48 ≤ c ∧ c ≤ 57) := fun c hc => (hsafe c hc).1
  cases i with
  | ofNat n =>
    show parseNum (natRepr n ++ rest) = _
    have hcore := parseNumCore_natRepr n rest hdig
    rcases Nat.eq_zero_or_pos n with rfl | hn
    · show parseNum (48 :: rest) = _
      unfold parseNum
      dsimp only
      rw [if_neg (by omega : ¬ (48 : Nat) = 45)]
      have : (48 :: rest : PyStr) = natRepr 0 ++ rest := rfl
      rw [this, hcore]
      dsimp only
      rw [parseNumFinish_safe _ _ hsafe]
      rfl
    · obtain ⟨d, t, hdt, hd1, hd2⟩ := natReprAux_head n n hn (Nat.le_refl n)
      have hnr : natRepr n = d :: t := by
        unfold natRepr
        rw [if_neg (by omega), hdt]
      rw [hnr, List.cons_append]
      unfold parseNum
      dsimp only
      rw [if_neg (by omega : ¬ d = 45)]
      rw [← List.cons_append, ← hnr, hcore]
      dsimp only
      rw [parseNumFinish_safe _ _ hsafe]
      rfl
  | negSucc m =>
    show parseNum (45 :: (natRepr (m + 1) ++ rest)) = _
    unfold parseNum
    dsimp only
    rw [if_pos rfl, parseNumCore_natRepr (m + 1) rest hdig]
    dsimp only
    rw [parseNumFinish_safe _ _ hsafe, Int.negSucc_eq]
    simp

theorem hexDigit_ascii (n : Nat) : hexDigit (n % 16) < 128 := by
  unfold hexDigit
  split <;> omega

theorem hex4_ascii (n : Nat) : ∀ c ∈ hex4 n, c < 128 := by
  unfold hex4
  intro c hc
  rcases List.mem_cons.mp hc with rfl | hc
  · exact hexDigit_ascii _
  rcases List.mem_cons.mp hc with rfl | hc
  · exact hexDigit_ascii _
  rcases List.mem_cons.mp hc with rfl | hc
  · exact hexDigit_ascii _
  rcases List.mem_cons.mp hc with rfl | hc
  · exact hexDigit_ascii _
  · cases hc

theorem escChar_ascii (c : Nat) : ∀ b ∈ escChar c, b < 128 := by
  unfold escChar
  intro b hb
  split_ifs at hb with h1 h2 h3 h4 h5 h6 h7 h8 h9
  any_goals (simp at hb; omega)
  · rcases List.mem_cons.mp hb with rfl | hb
    · omega
    rcases List.mem_cons.mp hb with rfl | hb
    · omega
    · exact hex4_ascii c b hb
  · simp only [List.append_eq, List.mem_append, List.mem_cons] at hb
    rcases hb with (rfl | rfl | hb) | (rfl | rfl | hb)
    · omega
    · omega
    · exact hex4_ascii _ b hb
    · omega
    · omega
    · exact hex4_ascii _ b hb

theorem dumpsStr_ascii (s : PyStr) : (dumpsStr s).all (· < 128) = true := by
  unfold dumpsStr
  simp only [List.all_eq_true, decide_eq_true_eq]
  intro b hb
  rcases List.mem_cons.mp hb with rfl | hb
  · omega
  rcases List.mem_append.mp hb with hb | hb
  · obtain ⟨l, hl, hbl⟩ := List.mem_flatten.mp hb
    obtain ⟨c, _, rfl⟩ := List.mem_map.mp hl
    exact escChar_ascii c b hbl
  · rcases List.mem_singleton.mp hb with rfl
    omega

theorem intRepr_ascii (i : Int) : (intRepr i).all (· < 128) = true := by
  have hnat : ∀ n : Nat, (natRepr n).all (· < 128) = true := by
    intro n
    unfold natRepr
    split
    · rfl
    · simp only [List.all_eq_true, decide_eq_true_eq]
      intro c hc
      have := natReprAux_digits n n [] (by simp) c hc
      omega
  cases i with
  | ofNat n => exact hnat n
  | negSucc m =>
    simp only [intRepr, List.all_cons, Bool.and_eq_true, decide_eq_true_eq]
    exact ⟨by omega, hnat (m + 1)⟩

mutual
theorem dumpsV_ascii : ∀ v : JVal, (dumpsV v).all (· < 128) = true
  | .jnull => rfl
  | .jbool true => rfl
  | .jbool false => rfl
  | .jnum i => intRepr_ascii i
  | .jstr s => dumpsStr_ascii s
  | .jarr l => by
    simp only [dumpsV, List.all_cons, List.all_append, Bool.and_eq_true, decide_eq_true_eq]
    exact ⟨by omega, dumpsArr_ascii l, by simp⟩
  | .jobj l => by
    simp only [dumpsV, List.all_cons, List.all_append, Bool.and_eq_true, decide_eq_true_eq]
    exact ⟨by omega, dumpsObj_ascii l, by simp⟩

theorem dumpsArr_ascii : ∀ l : List JVal, (dumpsArr l).all (· < 128) = true
  | [] => rfl
  | [v] => dumpsV_ascii v
  | v :: w :: rest => by
    simp only [dumpsArr, List.all_append, List.all_cons, Bool.and_eq_true, decide_eq_true_eq]
    exact ⟨dumpsV_ascii v, by omega, by omega, dumpsArr_ascii (w :: rest)⟩

theorem dumpsObj_ascii : ∀ l : List (PyStr × JVal), (dumpsObj l).all (· < 128) = true
  | [] => rfl
  | [(k, v)] => by
    simp only [dumpsObj, List.all_append, List.all_cons, Bool.and_eq_true, decide_eq_true_eq]
    exact ⟨dumpsStr_ascii k, by omega, by omega, dumpsV_ascii v⟩
  | (k, v) :: q :: rest => by
    simp only [dumpsObj, List.all_append, List.all_cons, Bool.and_eq_true, decide_eq_true_eq]
    exact ⟨⟨dumpsStr_ascii k, by omega, by omega, dumpsV_ascii v⟩, by omega, by omega,
      dumpsObj_ascii (q :: rest)⟩
end

theorem hexVal_hexDigit (m : Nat) (h : m < 16) : hexVal (hexDigit m) = some m := by
  unfold hexDigit hexVal
  split_ifs <;> simp_all <;> omega

theorem parseHex4_hex4 (n : Nat) (h : n < 0x10000) (rest : PyStr) :
    parseHex4 (hex4 n ++ rest) = some (n, rest) := by
  show parseHex4 (hexDigit (n / 4096 % 16) :: hexDigit (n / 256 % 16) :: hexDigit (n / 16 % 16)
    :: hexDigit (n % 16) :: rest) = some (n, rest)
  unfold parseHex4
  dsimp only
  rw [hexVal_hexDigit _ (by omega), hexVal_hexDigit _ (by omega), hexVal_hexDigit _ (by omega),
    hexVal_hexDigit _ (by omega)]
  simp only [Option.bind_eq_bind, Option.some_bind]
  have hval : n / 4096 % 16 * 4096 + n / 256 % 16 * 256 + n / 16 % 16 * 16 + n % 16 = n := by
    omega
  rw [show (pure (n / 4096 % 16 * 4096 + n / 256 % 16 * 256 + n / 16 % 16 * 16 + n % 16, rest)
      : Option (Nat × PyStr)) = some (n, rest) from by rw [hval]; rfl]

theorem parseStrAux_esc (e c2 : Nat) (he : escDecode e = some c2) (he117 : ¬ e = 117)
    (f : Nat) (r2 : PyStr) :
    parseStrAux (f + 1) (92 :: e :: r2) = (parseStrAux f r2).map fun r => (c2 :: r.1, r.2) := by
  conv_lhs => unfold parseStrAux
  dsimp only
  rw [if_neg (by omega : ¬ (92 : Nat) = 34), if_pos rfl, if_neg he117, he]

theorem parseStrAux_raw (c : Nat) (h34 : ¬ c = 34) (h92 : ¬ c = 92) (hctl : ¬ c < 32)
    (f : Nat) (r2 : PyStr) :
    parseStrAux (f + 1) (c :: r2) = (parseStrAux f r2).map fun r => (c :: r.1, r.2) := by
  conv_lhs => unfold parseStrAux
  dsimp only
  rw [if_neg h34, if_neg h92, if_neg hctl]

theorem parseStrAux_u_single (c : Nat) (hlt : c < 0x10000)
    (hns : ¬ (0xD800 ≤ c ∧ c ≤ 0xDBFF)) (f : Nat) (r2 : PyStr) :
    parseStrAux (f + 1) (92 :: 117 :: (hex4 c ++ r2))
      = (parseStrAux f r2).map fun r => (c :: r.1, r.2) := by
  conv_lhs => unfold parseStrAux
  dsimp only
  rw [if_neg (by omega : ¬ (92 : Nat) = 34), if_pos rfl, if_pos rfl]
  rw [parseHex4_hex4 c (by omega) _]
  dsimp only
  rw [if_neg hns]

theorem parseStrAux_u_pair (c : Nat) (hge : 0x10000 ≤ c) (hlt : c < 0x110000)
    (f : Nat) (r2 : PyStr) :
    parseStrAux (f + 1) ((92 :: 117 :: hex4 (0xD800 + (c - 0x10000) / 1024))
        ++ ((92 :: 117 :: hex4 (0xDC00 + (c - 0x10000) % 1024)) ++ r2))
      = (parseStrAux f r2).map fun r => (c :: r.1, r.2) := by
  have hhi : 0xD800 ≤ 0xD800 + (c - 0x10000) / 1024
      ∧ 0xD800 + (c - 0x10000) / 1024 ≤ 0xDBFF := by omega
  have hlo : 0xDC00 ≤ 0xDC00 + (c - 0x10000) % 1024
      ∧ 0xDC00 + (c - 0x10000) % 1024 ≤ 0xDFFF := by omega
  rw [List.cons_append, List.cons_append]
  conv_lhs => unfold parseStrAux
  dsimp only
  rw [if_neg (by omega : ¬ (92 : Nat) = 34), if_pos rfl, if_pos rfl]
  rw [parseHex4_hex4 _ (by omega) _]
  dsimp only
  rw [if_pos hhi]
  rw [List.cons_append, List.cons_append]
  have hpre : (pstr "\\u").isPrefixOf
      (92 :: 117 :: (hex4 (0xDC00 + (c - 0x10000) % 1024) ++ r2)) = true := by
    simp [pstr, List.isPrefixOf]
  rw [if_pos hpre]
  have hdrop : (92 :: 117 :: (hex4 (0xDC00 + (c - 0x10000) % 1024) ++ r2)).drop 2
      = hex4 (0xDC00 + (c - 0x10000) % 1024) ++ r2 := rfl
  rw [hdrop, parseHex4_hex4 _ (by omega) _]
  dsimp only
  rw [if_pos hlo]
  have hval : 0x10000 + (0xD800 + (c - 0x10000) / 1024 - 0xD800) * 1024
      + (0xDC00 + (c - 0x10000) % 1024 - 0xDC00) = c := by omega
  rw [hval]

theorem parseStrAux_escChar (c : Nat) (hlt : c < 0x110000)
    (hsur : ¬ (0xD800 ≤ c ∧ c ≤ 0xDFFF)) (f : Nat) (r2 : PyStr) :
    parseStrAux (f + 1) (escChar c ++ r2)
      = (parseStrAux f r2).map fun r => (c :: r.1, r.2) := by
  unfold escChar
  split_ifs with h1 h2 h3 h4 h5 h6 h7 h8 h9
  · subst h1; exact parseStrAux_esc 34 34 rfl (by omega) f r2
  · subst h2; exact parseStrAux_esc 92 92 rfl (by omega) f r2
  · subst h3; exact parseStrAux_esc 98 8 rfl (by omega) f r2
  · subst h4; exact parseStrAux_esc 102 12 rfl (by omega) f r2
  · subst h5; exact parseStrAux_esc 110 10 rfl (by omega) f r2
  · subst h6; exact parseStrAux_esc 114 13 rfl (by omega) f r2
  · subst h7; exact parseStrAux_esc 116 9 rfl (by omega) f r2
  · rw [List.cons_append, List.cons_append]
    exact parseStrAux_u_single c h9 (fun h => hsur ⟨h.1, by omega⟩) f r2
  · rw [List.append_assoc]
    exact parseStrAux_u_pair c (by omega) hlt f r2
  · rw [List.cons_append, List.nil_append]
    exact parseStrAux_raw c h1 h2 (by omega) f r2

theorem parseStrAux_dumps : ∀ (s : PyStr), canonStr s = true → ∀ (fuel : Nat) (rest : PyStr),
    s.length + 1 ≤ fuel →
    parseStrAux fuel ((s.map escChar).flatten ++ (34 :: rest)) = some (s, rest)
  | [], _, fuel, rest, hf => by
    rcases fuel with _ | f
    · omega
    · show parseStrAux (f + 1) (34 :: rest) = some ([], rest)
      unfold parseStrAux
      dsimp only
      rw [if_pos rfl]
  | c :: t, hcanon, fuel, rest, hf => by
    have hct : canonOk c = true ∧ canonStr t = true := by
      unfold canonStr at hcanon ⊢
      simpa using hcanon
    have hcok : c < 0x110000 ∧ ¬(0xD800 ≤ c ∧ c ≤ 0xDFFF) := by
      have := hct.1
      unfold canonOk at this
      simp at this
      exact ⟨this.1, fun hs => by omega⟩
    rcases fuel with _ | f
    · omega
    have hfl : t.length + 1 ≤ f := by simpa using hf
    have ih := parseStrAux_dumps t hct.2 f rest hfl
    rw [List.map_cons, List.flatten_cons, List.append_assoc,
      parseStrAux_escChar c hcok.1 hcok.2 f _, ih]
    rfl
termination_by s => s.length

theorem skipWs_cons_nonws (c : Nat) (h : ¬ c = 32 ∧ ¬ c = 9 ∧ ¬ c = 10 ∧ ¬ c = 13)
    (r : PyStr) : skipWs (c :: r) = c :: r := by
  unfold skipWs
  rw [List.dropWhile_cons]
  simp [h.1, h.2.1, h.2.2.1, h.2.2.2]

theorem skipWs_cons_32 (r : PyStr) : skipWs (32 :: r) = skipWs r := by
  unfold skipWs
  rw [List.dropWhile_cons]
  simp

theorem numSafe_cons (c : Nat) (h : ¬(48 ≤ c ∧ c ≤ 57) ∧ c ≠ 46 ∧ c ≠ 101 ∧ c ≠ 69)
    (X : PyStr) :
    ∀ d ∈ (c :: X).take 1, ¬(48 ≤ d ∧ d ≤ 57) ∧ d ≠ 46 ∧ d ≠ 101 ∧ d ≠ 69 := by
  intro d hd
  have hdc : d = c := by simpa using hd
  subst hdc
  exact h

theorem intRepr_head (i : Int) :
    ∃ c t, intRepr i = c :: t ∧ (c = 45 ∨ (48 ≤ c ∧ c ≤ 57)) := by
  cases i with
  | ofNat n =>
    show ∃ c t, natRepr n = c :: t ∧ _
    rcases Nat.eq_zero_or_pos n with rfl | hn
    · exact ⟨48, [], rfl, Or.inr (by omega)⟩
    · obtain ⟨d, t, hdt, hd1, hd2⟩ := natReprAux_head n n hn (Nat.le_refl n)
      have hnr : natRepr n = d :: t := by
        unfold natRepr
        rw [if_neg (by omega), hdt]
      exact ⟨d, t, hnr, Or.inr ⟨by omega, by omega⟩⟩
  | negSucc m => exact ⟨45, natRepr (m + 1), rfl, Or.inl rfl⟩

theorem dumpsV_head (v : JVal) : ∃ c t, dumpsV v = c :: t ∧ ¬ c = 93 ∧ ¬ c = 125
    ∧ ∀ u : PyStr, skipWs (c :: u) = c :: u := by
  cases v with
  | jnull =>
    exact ⟨110, pstr "ull", rfl, by omega, by omega,
      fun u => skipWs_cons_nonws 110 (by omega) u⟩
  | jbool b =>
    cases b with
    | true =>
      exact ⟨116, pstr "rue", rfl, by omega, by omega,
        fun u => skipWs_cons_nonws 116 (by omega) u⟩
    | false =>
      exact ⟨102, pstr "alse", rfl, by omega, by omega,
        fun u => skipWs_cons_nonws 102 (by omega) u⟩
  | jnum i =>
    obtain ⟨c, t, hct, hc⟩ := intRepr_head i
    exact ⟨c, t, hct, by omega, by omega, fun u => skipWs_cons_nonws c (by omega) u⟩
  | jstr s =>
    exact ⟨34, _, rfl, by omega, by omega, fun u => skipWs_cons_nonws 34 (by omega) u⟩
  | jarr l =>
    exact ⟨91, _, rfl, by omega, by omega, fun u => skipWs_cons_nonws 91 (by omega) u⟩
  | jobj l =>
    exact ⟨123, _, rfl, by omega, by omega, fun u => skipWs_cons_nonws 123 (by omega) u⟩

theorem skipWs_dumpsV_append (v : JVal) (r : PyStr) :
    skipWs (dumpsV v ++ r) = dumpsV v ++ r := by
  obtain ⟨c, t, hv, _, _, hsk⟩ := dumpsV_head v
  rw [hv, List.cons_append, hsk]

theorem dumpsArr_cons_decomp (w : JVal) (l2 : List JVal) :
    ∃ T, dumpsArr (w :: l2) = dumpsV w ++ T := by
  cases l2 with
  | nil => exact ⟨[], (List.append_nil _).symm⟩
  | cons q r => exact ⟨_, rfl⟩

theorem parseVal_null (f : Nat) (rest : PyStr) :
    parseVal (f + 1) (dumpsV .jnull ++ rest) = some (.jnull, rest) := by
  show parseVal (f + 1) (110 :: (pstr "ull" ++ rest)) = some (.jnull, rest)
  conv_lhs => unfold parseVal
  dsimp only
  rw [if_neg (by omega : ¬ (110:Nat) = 123), if_neg (by omega : ¬ (110:Nat) = 91),
    if_neg (by omega : ¬ (110:Nat) = 34), if_neg (by omega : ¬ (110:Nat) = 116),
    if_neg (by omega : ¬ (110:Nat) = 102), if_pos rfl,
    if_pos (isPrefixOf_append_self (pstr "ull") rest)]
  rfl

theorem parseVal_btrue (f : Nat) (rest : PyStr) :
    parseVal (f + 1) (dumpsV (.jbool true) ++ rest) = some (.jbool true, rest) := by
  show parseVal (f + 1) (116 :: (pstr "rue" ++ rest)) = some (.jbool true, rest)
  conv_lhs => unfold parseVal
  dsimp only
  rw [if_neg (by omega : ¬ (116:Nat) = 123), if_neg (by omega : ¬ (116:Nat) = 91),
    if_neg (by omega : ¬ (116:Nat) = 34), if_pos rfl,
    if_pos (isPrefixOf_append_self (pstr "rue") rest)]
  rfl

theorem parseVal_bfalse (f : Nat) (rest : PyStr) :
    parseVal (f + 1) (dumpsV (.jbool false) ++ rest) = some (.jbool false, rest) := by
  show parseVal (f + 1) (102 :: (pstr "alse" ++ rest)) = some (.jbool false, rest)
  conv_lhs => unfold parseVal
  dsimp only
  rw [if_neg (by omega : ¬ (102:Nat) = 123), if_neg (by omega : ¬ (102:Nat) = 91),
    if_neg (by omega : ¬ (102:Nat) = 34), if_neg (by omega : ¬ (102:Nat) = 116), if_pos rfl,
    if_pos (isPrefixOf_append_self (pstr "alse") rest)]
  rfl

theorem parseVal_str (f : Nat) (s : PyStr) (hs : canonStr s = true) (hf : s.length + 1 ≤ f)
    (rest : PyStr) :
    parseVal (f + 1) (dumpsV (.jstr s) ++ rest) = some (.jstr s, rest) := by
  have hshape : dumpsV (.jstr s) ++ rest
      = 34 :: ((s.map escChar).flatten ++ (34 :: rest)) := by
    show (34 :: ((s.map escChar).flatten ++ [34])) ++ rest = _
    rw [List.cons_append, List.append_assoc]
    rfl
  rw [hshape]
  conv_lhs => unfold parseVal
  dsimp only
  rw [if_neg (by omega : ¬ (34:Nat) = 123), if_neg (by omega : ¬ (34:Nat) = 91), if_pos rfl,
    parseStrAux_dumps s hs f rest hf]
  rfl

theorem parseVal_num_branch (f : Nat) (c : Nat) (t : PyStr)
    (hc : c = 45 ∨ (48 ≤ c ∧ c ≤ 57)) :
    parseVal (f + 1) (c :: t) = parseNum (c :: t) := by
  conv_lhs => unfold parseVal
  dsimp only
  rw [if_neg (by omega), if_neg (by omega), if_neg (by omega), if_neg (by omega),
    if_neg (by omega), if_neg (by omega), if_pos hc]

theorem parseVal_jnum (f : Nat) (i : Int) (rest : PyStr)
    (hsafe : ∀ c ∈ rest.take 1, ¬(48 ≤ c ∧ c ≤ 57) ∧ c ≠ 46 ∧ c ≠ 101 ∧ c ≠ 69) :
    parseVal (f + 1) (dumpsV (.jnum i) ++ rest) = some (.jnum i, rest) := by
  obtain ⟨c, t, hct, hc⟩ := intRepr_head i
  have h1 : dumpsV (.jnum i) ++ rest = c :: (t ++ rest) := by
    show intRepr i ++ rest = _
    rw [hct, List.cons_append]
  rw [h1, parseVal_num_branch f c _ hc]
  have h2 : (c :: (t ++ rest) : PyStr) = intRepr i ++ rest := by rw [hct, List.cons_append]
  rw [h2, parseNum_intRepr i rest hsafe]

theorem parseVal_arr_nil (f : Nat) (rest : PyStr) :
    parseVal (f + 1) (dumpsV (.jarr []) ++ rest) = some (.jarr [], rest) := by
  show parseVal (f + 1) (91 :: (93 :: rest)) = some (.jarr [], rest)
  conv_lhs => unfold parseVal
  dsimp only
  rw [if_neg (by omega : ¬ (91:Nat) = 123), if_pos rfl,
    skipWs_cons_nonws 93 (by omega) rest]
  dsimp only
  rw [if_pos rfl]

theorem parseVal_arr_cons (f : Nat) (v : JVal) (l2 : List JVal) (rest : PyStr) :
    parseVal (f + 1) (dumpsV (.jarr (v :: l2)) ++ rest)
      = parseArrItems f (dumpsArr (v :: l2) ++ (93 :: rest)) [] := by
  obtain ⟨c0, t0, hv, h93, _, hsk⟩ := dumpsV_head v
  obtain ⟨T, hT⟩ := dumpsArr_cons_decomp v l2
  have hda : dumpsArr (v :: l2) ++ (93 :: rest) = c0 :: ((t0 ++ T) ++ (93 :: rest)) := by
    rw [hT, hv]
    rfl
  have h1 : dumpsV (.jarr (v :: l2)) ++ rest = 91 :: (dumpsArr (v :: l2) ++ (93 :: rest)) := by
    show (91 :: (dumpsArr (v :: l2) ++ [93])) ++ rest = _
    rw [List.cons_append, List.append_assoc]
    rfl
  rw [h1]
  conv_lhs => unfold parseVal
  dsimp only
  rw [if_neg (by omega : ¬ (91:Nat) = 123), if_pos rfl, hda, hsk]
  dsimp only
  rw [if_neg h93, ← hda]

theorem parseVal_obj_nil (f : Nat) (rest : PyStr) :
    parseVal (f + 1) (dumpsV (.jobj []) ++ rest) = some (.jobj [], rest) := by
  show parseVal (f + 1) (123 :: (125 :: rest)) = some (.jobj [], rest)
  conv_lhs => unfold parseVal
  dsimp only
  rw [if_pos rfl, skipWs_cons_nonws 125 (by omega) rest]
  dsimp only
  rw [if_pos rfl]

theorem dumpsObj_cons_decomp (k : PyStr) (v : JVal) (l : List (PyStr × JVal)) :
    ∃ T, dumpsObj ((k, v) :: l) = dumpsStr k ++ T := by
  cases l with
  | nil => exact ⟨_, rfl⟩
  | cons q r =>
    refine ⟨(58 :: 32 :: dumpsV v) ++ (44 :: 32 :: dumpsObj (q :: r)), ?_⟩
    rw [dumpsObj, List.append_assoc]

theorem parseVal_obj_cons (f : Nat) (k : PyStr) (v : JVal) (l : List (PyStr × JVal))
    (rest : PyStr) :
    parseVal (f + 1) (dumpsV (.jobj ((k, v) :: l)) ++ rest)
      = parseObjItems f (dumpsObj ((k, v) :: l) ++ (125 :: rest)) [] := by
  obtain ⟨T, hT⟩ := dumpsObj_cons_decomp k v l
  obtain ⟨t2, hda⟩ : ∃ t2, dumpsObj ((k, v) :: l) ++ (125 :: rest) = 34 :: t2 := by
    rw [hT]
    exact ⟨_, rfl⟩
  have h1 : dumpsV (.jobj ((k, v) :: l)) ++ rest
      = 123 :: (dumpsObj ((k, v) :: l) ++ (125 :: rest)) := by
    show (123 :: (dumpsObj ((k, v) :: l) ++ [125])) ++ rest = _
    rw [List.cons_append, List.append_assoc]
    rfl
  rw [h1]
  conv_lhs => unfold parseVal
  dsimp only
  rw [if_pos rfl, hda, skipWs_cons_nonws 34 (by omega) t2]
  dsimp only
  rw [if_neg (by omega : ¬ (34:Nat) = 125), ← hda]

theorem parseArrItems_step_last (f : Nat) (v : JVal) (acc : List JVal) (rest : PyStr)
    (hval : parseVal f (dumpsV v ++ (93 :: rest)) = some (v, 93 :: rest)) :
    parseArrItems (f + 1) (dumpsArr [v] ++ (93 :: rest)) acc
      = some (.jarr (acc ++ [v]), rest) := by
  show parseArrItems (f + 1) (dumpsV v ++ (93 :: rest)) acc = _
  conv_lhs => unfold parseArrItems
  rw [hval]
  dsimp only
  rw [skipWs_cons_nonws 93 (by omega) rest]
  dsimp only
  rw [if_neg (by omega : ¬ (93:Nat) = 44), if_pos rfl]

theorem parseArrItems_step_cons (f : Nat) (v w : JVal) (l2 : List JVal)
    (acc : List JVal) (rest : PyStr)
    (hval : parseVal f (dumpsV v ++ (44 :: 32 :: (dumpsArr (w :: l2) ++ (93 :: rest))))
      = some (v, 44 :: 32 :: (dumpsArr (w :: l2) ++ (93 :: rest)))) :
    parseArrItems (f + 1) (dumpsArr (v :: w :: l2) ++ (93 :: rest)) acc
      = parseArrItems f (dumpsArr (w :: l2) ++ (93 :: rest)) (acc ++ [v]) := by
  have hshape : dumpsArr (v :: w :: l2) ++ (93 :: rest)
      = dumpsV v ++ (44 :: 32 :: (dumpsArr (w :: l2) ++ (93 :: rest))) := by
    show (dumpsV v ++ (44 :: 32 :: dumpsArr (w :: l2))) ++ (93 :: rest) = _
    rw [List.append_assoc]
    rfl
  rw [hshape]
  conv_lhs => unfold parseArrItems
  rw [hval]
  dsimp only
  rw [skipWs_cons_nonws 44 (by omega) _]
  dsimp only
  rw [if_pos rfl, skipWs_cons_32]
  have hsw : skipWs (dumpsArr (w :: l2) ++ (93 :: rest))
      = dumpsArr (w :: l2) ++ (93 :: rest) := by
    obtain ⟨T, hT⟩ := dumpsArr_cons_decomp w l2
    rw [hT, List.append_assoc, skipWs_dumpsV_append]
  rw [hsw]

theorem parseObjItems_step_last (f : Nat) (k : PyStr) (v : JVal)
    (acc : List (PyStr × JVal)) (rest : PyStr)
    (hk : canonStr k = true) (hfk : k.length + 1 ≤ f)
    (hval : parseVal f (dumpsV v ++ (125 :: rest)) = some (v, 125 :: rest)) :
    parseObjItems (f + 1) (dumpsObj [(k, v)] ++ (125 :: rest)) acc
      = some (.jobj (dictSet k v acc), rest) := by
  have hshape : dumpsObj [(k, v)] ++ (125 :: rest)
      = 34 :: ((k.map escChar).flatten
          ++ (34 :: (58 :: 32 :: (dumpsV v ++ (125 :: rest))))) := by
    show (dumpsStr k ++ (58 :: 32 :: dumpsV v)) ++ (125 :: rest) = _
    rw [List.append_assoc]
    show (34 :: ((k.map escChar).flatten ++ [34])) ++ _ = _
    rw [List.cons_append, List.append_assoc]
    rfl
  rw [hshape]
  conv_lhs => unfold parseObjItems
  dsimp only
  rw [if_pos rfl, parseStrAux_dumps k hk f _ hfk]
  dsimp only
  rw [skipWs_cons_nonws 58 (by omega) _]
  dsimp only
  rw [if_pos rfl, skipWs_cons_32, skipWs_dumpsV_append, hval]
  dsimp only
  rw [skipWs_cons_nonws 125 (by omega) rest]
  dsimp only
  rw [if_neg (by omega : ¬ (125:Nat) = 44), if_pos rfl]

theorem parseObjItems_step_cons (f : Nat) (k : PyStr) (v : JVal) (k2 : PyStr) (v2 : JVal)
    (l3 : List (PyStr × JVal)) (acc : List (PyStr × JVal)) (rest : PyStr)
    (hk : canonStr k = true) (hfk : k.length + 1 ≤ f)
    (hval : parseVal f
        (dumpsV v ++ (44 :: 32 :: (dumpsObj ((k2, v2) :: l3) ++ (125 :: rest))))
      = some (v, 44 :: 32 :: (dumpsObj ((k2, v2) :: l3) ++ (125 :: rest)))) :
    parseObjItems (f + 1) (dumpsObj ((k, v) :: (k2, v2) :: l3) ++ (125 :: rest)) acc
      = parseObjItems f (dumpsObj ((k2, v2) :: l3) ++ (125 :: rest)) (dictSet k v acc) := by
  have hshape : dumpsObj ((k, v) :: (k2, v2) :: l3) ++ (125 :: rest)
      = 34 :: ((k.map escChar).flatten ++ (34 :: (58 :: 32 ::
          (dumpsV v ++ (44 :: 32 :: (dumpsObj ((k2, v2) :: l3) ++ (125 :: rest))))))) := by
    show ((dumpsStr k ++ (58 :: 32 :: dumpsV v)) ++ (44 :: 32 :: dumpsObj ((k2, v2) :: l3)))
        ++ (125 :: rest) = _
    rw [List.append_assoc, List.append_assoc]
    show (34 :: ((k.map escChar).flatten ++ [34])) ++ _ = _
    rw [List.cons_append, List.append_assoc]
    rfl
  rw [hshape]
  conv_lhs => unfold parseObjItems
  dsimp only
  rw [if_pos rfl, parseStrAux_dumps k hk f _ hfk]
  dsimp only
  rw [skipWs_cons_nonws 58 (by omega) _]
  dsimp only
  rw [if_pos rfl, skipWs_cons_32, skipWs_dumpsV_append, hval]
  dsimp only
  rw [skipWs_cons_nonws 44 (by omega) _]
  dsimp only
  rw [if_pos rfl, skipWs_cons_32]
  have hsw : skipWs (dumpsObj ((k2, v2) :: l3) ++ (125 :: rest))
      = dumpsObj ((k2, v2) :: l3) ++ (125 :: rest) := by
    obtain ⟨T, hT⟩ := dumpsObj_cons_decomp k2 v2 l3
    rw [hT]
    show skipWs (34 :: ((((k2.map escChar).flatten ++ [34]) ++ T) ++ (125 :: rest))) = _
    rw [skipWs_cons_nonws 34 (by omega) _]
    rfl
  rw [hsw]

theorem contains_append_one_false (l : List PyStr) (k k3 : PyStr)
    (h1 : l.contains k3 = false) (h2 : ¬ k3 = k) :
    (l ++ [k]).contains k3 = false := by
  cases hc : (l ++ [k]).contains k3 with
  | false => rfl
  | true =>
    exfalso
    have hm := List.mem_of_elem_eq_true hc
    rcases List.mem_append.mp hm with hm | hm
    · have hct : l.contains k3 = true := List.elem_eq_true_of_mem hm
      rw [h1] at hct
      cases hct
    · exact h2 (List.mem_singleton.mp hm)

theorem keysUnique_cons (k : PyStr) (v : JVal) (t : List (PyStr × JVal))
    (h : keysUnique ((k, v) :: t) = true) :
    (t.map Prod.fst).contains k = false ∧ keysUnique t = true := by
  simp only [keysUnique, Bool.and_eq_true, Bool.not_eq_true'] at h
  exact h

mutual
theorem parseVal_dumps : ∀ (v : JVal), canonV v = true → ∀ (fuel : Nat) (rest : PyStr),
    sizeJ v ≤ fuel →
    (∀ c ∈ rest.take 1, ¬(48 ≤ c ∧ c ≤ 57) ∧ c ≠ 46 ∧ c ≠ 101 ∧ c ≠ 69) →
    parseVal fuel (dumpsV v ++ rest) = some (v, rest)
  | .jnull, _, fuel, rest, hf, _ => by
    rcases fuel with _ | f
    · exact absurd hf (by simp only [sizeJ]; omega)
    · exact parseVal_null f rest
  | .jbool true, _, fuel, rest, hf, _ => by
    rcases fuel with _ | f
    · exact absurd hf (by simp only [sizeJ]; omega)
    · exact parseVal_btrue f rest
  | .jbool false, _, fuel, rest, hf, _ => by
    rcases fuel with _ | f
    · exact absurd hf (by simp only [sizeJ]; omega)
    · exact parseVal_bfalse f rest
  | .jnum i, _, fuel, rest, hf, hsafe => by
    rcases fuel with _ | f
    · exact absurd hf (by simp only [sizeJ]; omega)
    · exact parseVal_jnum f i rest hsafe
  | .jstr s, hc, fuel, rest, hf, _ => by
    rcases fuel with _ | f
    · exact absurd hf (by simp only [sizeJ]; omega)
    · exact parseVal_str f s hc (by simp only [sizeJ] at hf; omega) rest
  | .jarr [], _, fuel, rest, hf, _ => by
    rcases fuel with _ | f
    · exact absurd hf (by simp only [sizeJ]; omega)
    · exact parseVal_arr_nil f rest
  | .jarr (v :: l2), hc, fuel, rest, hf, _ => by
    rcases fuel with _ | f
    · exact absurd hf (by simp only [sizeJ]; omega)
    have hsplit : (canonV v && canonArr l2) = true := hc
    have hcc : canonV v = true ∧ canonArr l2 = true := by simpa using hsplit
    rw [parseVal_arr_cons f v l2 rest]
    have hres := parseArrItems_dumps l2 v hcc.1 hcc.2 f rest []
      (by simp only [sizeJ] at hf; omega)
    simpa using hres
  | .jobj [], _, fuel, rest, hf, _ => by
    rcases fuel with _ | f
    · exact absurd hf (by simp only [sizeJ]; omega)
    · exact parseVal_obj_nil f rest
  | .jobj ((k, v) :: l), hc, fuel, rest, hf, _ => by
    rcases fuel with _ | f
    · exact absurd hf (by simp only [sizeJ]; omega)
    have hsplit : (keysUnique ((k, v) :: l) && canonObj ((k, v) :: l)) = true := hc
    have hparts : keysUnique ((k, v) :: l) = true ∧ canonObj ((k, v) :: l) = true := by
      simpa using hsplit
    have hco : ((canonStr k && canonV v) && canonObj l) = true := hparts.2
    have hco2 : (canonStr k && canonV v) = true ∧ canonObj l = true := by simpa using hco
    have hco3 : canonStr k = true ∧ canonV v = true := by simpa using hco2.1
    rw [parseVal_obj_cons f k v l rest]
    have hres := parseObjItems_dumps l k v hco3.1 hco3.2 hco2.2 hparts.1 f rest []
      (fun k2 _ => rfl) (by simp only [sizeJ] at hf; omega)
    simpa using hres
termination_by v => sizeJ v
decreasing_by all_goals (simp only [sizeJ, sizeA, sizeO]; omega)

theorem parseArrItems_dumps : ∀ (l : List JVal) (v : JVal), canonV v = true →
    canonArr l = true → ∀ (fuel : Nat) (rest : PyStr) (acc : List JVal),
    sizeA (v :: l) ≤ fuel →
    parseArrItems fuel (dumpsArr (v :: l) ++ (93 :: rest)) acc
      = some (.jarr (acc ++ v :: l), rest)
  | [], v, hv, _, fuel, rest, acc, hf => by
    rcases fuel with _ | f
    · exact absurd hf (by simp only [sizeA]; omega)
    exact parseArrItems_step_last f v acc rest
      (parseVal_dumps v hv f (93 :: rest) (by simp only [sizeA] at hf; omega)
        (numSafe_cons 93 (by omega) rest))
  | w :: l2, v, hv, hl, fuel, rest, acc, hf => by
    rcases fuel with _ | f
    · exact absurd hf (by simp only [sizeA]; omega)
    have hsplit : (canonV w && canonArr l2) = true := hl
    have hcc : canonV w = true ∧ canonArr l2 = true := by simpa using hsplit
    rw [parseArrItems_step_cons f v w l2 acc rest
      (parseVal_dumps v hv f _ (by simp only [sizeA] at hf; omega)
        (numSafe_cons 44 (by omega) _))]
    rw [parseArrItems_dumps l2 w hcc.1 hcc.2 f rest (acc ++ [v])
      (by simp only [sizeA] at hf ⊢; omega)]
    rw [List.append_assoc]
    rfl
termination_by l v => sizeA (v :: l)
decreasing_by all_goals (simp only [sizeJ, sizeA, sizeO]; omega)

theorem parseObjItems_dumps : ∀ (l : List (PyStr × JVal)) (k : PyStr) (v : JVal),
    canonStr k = true → canonV v = true → canonObj l = true →
    keysUnique ((k, v) :: l) = true →
    ∀ (fuel : Nat) (rest : PyStr) (acc : List (PyStr × JVal)),
    (∀ k2 ∈ ((k, v) :: l).map Prod.fst, (acc.map Prod.fst).contains k2 = false) →
    sizeO ((k, v) :: l) ≤ fuel →
    parseObjItems fuel (dumpsObj ((k, v) :: l) ++ (125 :: rest)) acc
      = some (.jobj (acc ++ (k, v) :: l), rest)
  | [], k, v, hk, hv, _, _, fuel, rest, acc, hdisj, hf => by
    rcases fuel with _ | f
    · exact absurd hf (by simp only [sizeO]; omega)
    have hknotacc : k ∉ acc.map Prod.fst := by
      intro hm
      have hct : (acc.map Prod.fst).contains k = true := List.elem_eq_true_of_mem hm
      have hcf := hdisj k (by simp)
      rw [hcf] at hct
      cases hct
    rw [parseObjItems_step_last f k v acc rest hk (by simp only [sizeO] at hf; omega)
      (parseVal_dumps v hv f (125 :: rest) (by simp only [sizeO] at hf; omega)
        (numSafe_cons 125 (by omega) rest))]
    rw [dictSet_append_new k v acc hknotacc]
  | (k2, v2) :: l3, k, v, hk, hv, hobj, hku, fuel, rest, acc, hdisj, hf => by
    rcases fuel with _ | f
    · exact absurd hf (by simp only [sizeO]; omega)
    have hosplit : ((canonStr k2 && canonV v2) && canonObj l3) = true := hobj
    have ho2 : (canonStr k2 && canonV v2) = true ∧ canonObj l3 = true := by simpa using hosplit
    have ho3 : canonStr k2 = true ∧ canonV v2 = true := by simpa using ho2.1
    have hku2 := keysUnique_cons k v ((k2, v2) :: l3) hku
    have hknotacc : k ∉ acc.map Prod.fst := by
      intro hm
      have hct : (acc.map Prod.fst).contains k = true := List.elem_eq_true_of_mem hm
      have hcf := hdisj k (by simp)
      rw [hcf] at hct
      cases hct
    rw [parseObjItems_step_cons f k v k2 v2 l3 acc rest hk
      (by simp only [sizeO] at hf; omega)
      (parseVal_dumps v hv f _ (by simp only [sizeO] at hf; omega)
        (numSafe_cons 44 (by omega) _))]
    rw [dictSet_append_new k v acc hknotacc]
    have hdisj2 : ∀ k3 ∈ ((k2, v2) :: l3).map Prod.fst,
        ((acc ++ [(k, v)]).map Prod.fst).contains k3 = false := by
      intro k3 hk3
      rw [List.map_append]
      refine contains_append_one_false _ _ _ (hdisj k3 (List.mem_cons_of_mem _ hk3)) ?_
      intro hEq
      subst hEq
      have hct : (((k2, v2) :: l3).map Prod.fst).contains k3 = true :=
        List.elem_eq_true_of_mem hk3
      rw [hku2.1] at hct
      cases hct
    rw [parseObjItems_dumps l3 k2 v2 ho3.1 ho3.2 ho2.2 hku2.2 f rest (acc ++ [(k, v)])
      hdisj2 (by simp only [sizeO] at hf ⊢; omega)]
    rw [List.append_assoc]
    rfl
termination_by l k v => sizeO ((k, v) :: l)
decreasing_by all_goals (simp only [sizeJ, sizeA, sizeO]; omega)
end

theorem escChar_length_pos (c : Nat) : 1 ≤ (escChar c).length := by
  unfold escChar
  split_ifs <;> simp [hex4]

theorem flat_escChar_len (s : PyStr) : s.length ≤ ((s.map escChar).flatten).length := by
  induction s with
  | nil => simp
  | cons c t ih =>
    simp only [List.map_cons, List.flatten_cons, List.length_append, List.length_cons]
    have := escChar_length_pos c
    omega

mutual
theorem sizeJ_le_len : ∀ v : JVal, sizeJ v ≤ (dumpsV v).length + 1
  | .jnull => by decide
  | .jbool true => by decide
  | .jbool false => by decide
  | .jnum i => by simp only [sizeJ, dumpsV]; omega
  | .jstr s => by
    simp only [sizeJ, dumpsV, dumpsStr, List.length_cons, List.length_append]
    have := flat_escChar_len s
    omega
  | .jarr l => by
    have := sizeA_le_len l
    simp only [sizeJ, dumpsV, List.length_cons, List.length_append]
    omega
  | .jobj l => by
    have := sizeO_le_len l
    simp only [sizeJ, dumpsV, List.length_cons, List.length_append]
    omega

theorem sizeA_le_len : ∀ l : List JVal, sizeA l ≤ (dumpsArr l).length + 2
  | [] => by decide
  | [v] => by
    have h1 := sizeJ_le_len v
    simp only [sizeA, dumpsArr]
    omega
  | v :: w :: r => by
    have h1 := sizeJ_le_len v
    have h2 := sizeA_le_len (w :: r)
    simp only [sizeA] at h2 ⊢
    simp only [dumpsArr, List.length_append, List.length_cons]
    omega

theorem sizeO_le_len : ∀ l : List (PyStr × JVal), sizeO l ≤ (dumpsObj l).length + 2
  | [] => by decide
  | [(k, v)] => by
    have h1 := sizeJ_le_len v
    have h2 := flat_escChar_len k
    simp only [sizeO, dumpsObj, dumpsStr, List.length_append, List.length_cons]
    omega
  | (k, v) :: (k2, v2) :: r => by
    have h1 := sizeJ_le_len v
    have h2 := flat_escChar_len k
    have h3 := sizeO_le_len ((k2, v2) :: r)
    simp only [sizeO] at h3 ⊢
    simp only [dumpsObj, dumpsStr, List.length_append, List.length_cons]
    omega
end

theorem loads_dumps (v : JVal) (hv : canonV v = true) : loads (dumpsV v) = some v := by
  obtain ⟨c, t, hvd, _, _, hsk⟩ := dumpsV_head v
  have hskip : skipWs (dumpsV v) = dumpsV v := by rw [hvd, hsk]
  have hfuel : sizeJ v ≤ 2 * (skipWs (dumpsV v)).length + 2 := by
    have := sizeJ_le_len v
    rw [hskip]
    omega
  have hp := parseVal_dumps v hv (2 * (skipWs (dumpsV v)).length + 2) [] hfuel
    (by intro c hc; simp at hc)
  rw [List.append_nil] at hp
  unfold loads
  rw [hskip] at hp ⊢
  dsimp only
  rw [hp]
  rfl

theorem find_map_set {α : Type} (k : PyStr) (v : α) : ∀ d : List (PyStr × α),
    (d.map Prod.fst).contains k = true →
    (((d.map fun p => if p.1 = k then (p.1, v) else p).find? fun p => p.1 == k).map
      Prod.snd) = some v
  | [], h => by simp at h
  | (k1, v1) :: t, h => by
    simp only [List.map_cons]
    by_cases hk : k1 = k
    · rw [if_pos hk, List.find?_cons_of_pos _ (by simp [hk])]
      simp
    · rw [if_neg hk, List.find?_cons_of_neg _ (by simp [hk])]
      refine find_map_set k v t ?_
      have hm : k ∈ k1 :: t.map Prod.fst := List.mem_of_elem_eq_true h
      rcases List.mem_cons.mp hm with heq | hm2
      · exact absurd heq.symm hk
      · exact List.elem_eq_true_of_mem hm2

theorem find_append_last {α : Type} (k : PyStr) (v : α) : ∀ d : List (PyStr × α),
    (d.map Prod.fst).contains k = false →
    (((d ++ [(k, v)]).find? fun p => p.1 == k).map Prod.snd) = some v
  | [], _ => by simp
  | (k1, v1) :: t, h => by
    have h' : (k1 :: t.map Prod.fst).elem k = false := h
    have hk : ¬ k1 = k := by
      intro heq
      have hmem : k ∈ k1 :: t.map Prod.fst := by
        rw [heq]
        exact List.mem_cons_self _ _
      exact Bool.noConfusion (h'.symm.trans (List.elem_eq_true_of_mem hmem))
    have ht : (t.map Prod.fst).contains k = false := by
      cases hc : (t.map Prod.fst).contains k with
      | false => rfl
      | true =>
        have hm := List.mem_of_elem_eq_true hc
        exact Bool.noConfusion (h'.symm.trans
          (List.elem_eq_true_of_mem (List.mem_cons_of_mem _ hm)))
    rw [List.cons_append, List.find?_cons_of_neg _ (by simp [hk])]
    exact find_append_last k v t ht

theorem dictGet_set_self {α : Type} (k : PyStr) (v : α) (d : List (PyStr × α)) :
    dictGet (dictSet k v d) k = some v := by
  unfold dictSet dictGet
  split_ifs with h
  · exact find_map_set k v d h
  · exact find_append_last k v d (by cases hc : (d.map Prod.fst).contains k with
      | false => rfl
      | true => exact absurd hc h)

theorem find_map_other {α : Type} (k k2 : PyStr) (v : α) (hkk : ¬ k = k2) :
    ∀ d : List (PyStr × α),
    (((d.map fun p => if p.1 = k then (p.1, v) else p).find? fun p => p.1 == k2).map
      Prod.snd) = ((d.find? fun p => p.1 == k2).map Prod.snd)
  | [] => rfl
  | (k1, v1) :: t => by
    simp only [List.map_cons]
    by_cases h1 : k1 = k
    · have h2 : ¬ k1 = k2 := by
        intro he
        exact hkk (h1 ▸ he)
      rw [if_pos h1, List.find?_cons_of_neg _ (by simp [h2]),
        List.find?_cons_of_neg _ (by simp [h2])]
      exact find_map_other k k2 v hkk t
    · rw [if_neg h1]
      by_cases h2 : k1 = k2
      · rw [List.find?_cons_of_pos _ (by simp [h2]), List.find?_cons_of_pos _ (by simp [h2])]
      · rw [List.find?_cons_of_neg _ (by simp [h2]), List.find?_cons_of_neg _ (by simp [h2])]
        exact find_map_other k k2 v hkk t

theorem find_append_other {α : Type} (k k2 : PyStr) (v : α) (hkk : ¬ k = k2) :
    ∀ d : List (PyStr × α),
    (((d ++ [(k, v)]).find? fun p => p.1 == k2).map Prod.snd)
      = ((d.find? fun p => p.1 == k2).map Prod.snd)
  | [] => by
    have hb : (k == k2) = false := by simp [hkk]
    simp [List.find?, hb]
  | (k1, v1) :: t => by
    rw [List.cons_append]
    by_cases h2 : k1 = k2
    · rw [List.find?_cons_of_pos _ (by simp [h2]), List.find?_cons_of_pos _ (by simp [h2])]
    · rw [List.find?_cons_of_neg _ (by simp [h2]), List.find?_cons_of_neg _ (by simp [h2])]
      exact find_append_other k k2 v hkk t

theorem dictGet_set_other {α : Type} (k k2 : PyStr) (v : α) (d : List (PyStr × α))
    (hkk : ¬ k = k2) : dictGet (dictSet k v d) k2 = dictGet d k2 := by
  unfold dictSet dictGet
  split_ifs with h
  · exact find_map_other k k2 v hkk d
  · exact find_append_other k k2 v hkk d

theorem contains_false_iff (l : List PyStr) (a : PyStr) : l.contains a = false ↔ a ∉ l := by
  constructor
  · intro h hm
    have h' : l.elem a = false := h
    exact Bool.noConfusion (h'.symm.trans (List.elem_eq_true_of_mem hm))
  · intro hm
    cases hc : l.contains a with
    | false => rfl
    | true => exact absurd (List.mem_of_elem_eq_true hc) hm

theorem keysUnique_of_nodup : ∀ d : List (PyStr × JVal),
    (d.map Prod.fst).Nodup → keysUnique d = true
  | [], _ => rfl
  | (k1, v1) :: t, h => by
    simp only [List.map_cons, List.nodup_cons] at h
    simp only [keysUnique, Bool.and_eq_true, Bool.not_eq_true']
    exact ⟨(contains_false_iff _ _).mpr h.1, keysUnique_of_nodup t h.2⟩

theorem nodup_of_keysUnique : ∀ d : List (PyStr × JVal),
    keysUnique d = true → (d.map Prod.fst).Nodup
  | [], _ => List.nodup_nil
  | (k1, v1) :: t, h => by
    have hh := keysUnique_cons k1 v1 t h
    simp only [List.map_cons, List.nodup_cons]
    exact ⟨(contains_false_iff _ _).mp hh.1, nodup_of_keysUnique t hh.2⟩

theorem keysUnique_set (k : PyStr) (v : JVal) (d : List (PyStr × JVal))
    (h : keysUnique d = true) : keysUnique (dictSet k v d) = true :=
  keysUnique_of_nodup _ (dictSet_keys_nodup k v d (nodup_of_keysUnique d h))

theorem canonObj_map_set (k : PyStr) (v : JVal) (hv : canonV v = true) :
    ∀ d : List (PyStr × JVal), canonObj d = true →
    canonObj (d.map fun p => if p.1 = k then (p.1, v) else p) = true
  | [], _ => rfl
  | (k1, v1) :: t, hd => by
    have hparts : ((canonStr k1 && canonV v1) && canonObj t) = true := hd
    have h1 : (canonStr k1 = true ∧ canonV v1 = true) ∧ canonObj t = true := by
      simpa using hparts
    simp only [List.map_cons]
    by_cases hk : k1 = k
    · rw [if_pos hk]
      simp only [canonObj, Bool.and_eq_true]
      exact ⟨⟨h1.1.1, hv⟩, canonObj_map_set k v hv t h1.2⟩
    · rw [if_neg hk]
      simp only [canonObj, Bool.and_eq_true]
      exact ⟨h1.1, canonObj_map_set k v hv t h1.2⟩

theorem canonObj_append_one (k : PyStr) (v : JVal) (hk : canonStr k = true)
    (hv : canonV v = true) :
    ∀ d : List (PyStr × JVal), canonObj d = true → canonObj (d ++ [(k, v)]) = true
  | [], _ => by
    simp only [List.nil_append, canonObj, Bool.and_eq_true]
    exact ⟨⟨hk, hv⟩, trivial⟩
  | (k1, v1) :: t, hd => by
    have hparts : ((canonStr k1 && canonV v1) && canonObj t) = true := hd
    have h1 : (canonStr k1 = true ∧ canonV v1 = true) ∧ canonObj t = true := by
      simpa using hparts
    rw [List.cons_append]
    simp only [canonObj, Bool.and_eq_true]
    exact ⟨h1.1, canonObj_append_one k v hk hv t h1.2⟩

theorem canonObj_set (k : PyStr) (v : JVal) (d : List (PyStr × JVal))
    (hk : canonStr k = true) (hv : canonV v = true) (hd : canonObj d = true) :
    canonObj (dictSet k v d) = true := by
  unfold dictSet
  split_ifs with h
  · exact canonObj_map_set k v hv d hd
  · exact canonObj_append_one k v hk hv d hd

theorem canonV_set (k : PyStr) (v : JVal) (o : List (PyStr × JVal))
    (hk : canonStr k = true) (hv : canonV v = true) (ho : canonV (.jobj o) = true) :
    canonV (.jobj (dictSet k v o)) = true := by
  have hsplit : (keysUnique o && canonObj o) = true := ho
  have h1 : keysUnique o = true ∧ canonObj o = true := by simpa using hsplit
  show (keysUnique (dictSet k v o) && canonObj (dictSet k v o)) = true
  simp [keysUnique_set k v o h1.1, canonObj_set k v o hk hv h1.2]

theorem quoteChar_some (c : Nat) (h : canonOk c = true) : ∃ q, quoteChar c = some q := by
  have hc : c < 0x110000 ∧ ¬ (0xD800 ≤ c ∧ c ≤ 0xDFFF) := by
    unfold canonOk at h
    simp at h
    exact ⟨h.1, fun hs => by omega⟩
  unfold quoteChar utf8Char
  split_ifs <;> first
    | exact ⟨_, rfl⟩
    | (exfalso; omega)

theorem quote_some : ∀ s : PyStr, canonStr s = true → ∃ q, quote s = some q
  | [], _ => ⟨[], rfl⟩
  | c :: t, h => by
    have hct : canonOk c = true ∧ canonStr t = true := by
      unfold canonStr at h ⊢
      simpa using h
    obtain ⟨q1, hq1⟩ := quoteChar_some c hct.1
    obtain ⟨q2, hq2⟩ := quote_some t hct.2
    exact ⟨q1 ++ q2, by simp [quote, hq1, hq2]⟩

theorem pySplit1_after_clean (sep : PyStr) (c0 : Nat) (sep2 : PyStr)
    (hsep : sep = c0 :: sep2) :
    ∀ pre : PyStr, (∀ c ∈ pre, ¬ c = c0) → ∀ t : PyStr,
    pySplit1 sep (pre ++ (sep ++ t)) = (pre, some t)
  | [], _, t => by
    have := pySplit1_cons_self sep t (by rw [hsep]; simp)
    simpa using this
  | c :: p2, hp, t => by
    show pySplit1 sep (c :: (p2 ++ (sep ++ t))) = (c :: p2, some t)
    have hnp : ¬ (sep.isPrefixOf (c :: (p2 ++ (sep ++ t))) = true) := by
      rw [hsep]
      simp only [List.isPrefixOf, Bool.and_eq_true, beq_iff_eq]
      rintro ⟨hc, -⟩
      exact hp c (List.mem_cons_self c p2) hc.symm
    conv_lhs => unfold pySplit1
    dsimp only
    rw [if_neg hnp,
      pySplit1_after_clean sep c0 sep2 hsep p2
        (fun d hd => hp d (List.mem_cons_of_mem c hd)) t]

theorem vmess_rewrite_eq (o : List (PyStr × JVal)) (ip port tag : PyStr) (p : Int)
    (qt : PyStr) (ho : canonV (.jobj o) = true) (hp : pyInt port = some p)
    (hqt : quote tag = some qt) :
    vmessRewrite (vmessLink o) ip port tag
      = some (pstr "vmess://" ++ b64encodeBytes (dumpsV (.jobj (vmessUpdate o ip p tag)))
          ++ (35 :: qt)) := by
  have hDa := dumpsV_ascii (.jobj o)
  have henc : b64_encode (dumpsV (.jobj o)) = some (b64encodeBytes (dumpsV (.jobj o))) := by
    unfold b64_encode
    rw [utf8Encode_ascii _ hDa]
    rfl
  have hlink : vmessLink o = pstr "vmess://" ++ b64encodeBytes (dumpsV (.jobj o)) := by
    unfold vmessLink
    rw [henc]
    rfl
  have hsplit : (pySplit1 (pstr "://") (vmessLink o)).2
      = some (b64encodeBytes (dumpsV (.jobj o))) := by
    rw [hlink]
    have hre : pstr "vmess://" ++ b64encodeBytes (dumpsV (.jobj o))
        = pstr "vmess" ++ (pstr "://" ++ b64encodeBytes (dumpsV (.jobj o))) := rfl
    rw [hre, pySplit1_after_clean (pstr "://") 58 (pstr "//") rfl (pstr "vmess")
      (by decide) _]
  have hdec : b64_decode (b64encodeBytes (dumpsV (.jobj o))) = some (dumpsV (.jobj o)) := by
    rw [b64decode_encode_bytes _ (ascii_lt256 _ hDa), utf8IgnoreDecode_ascii _ hDa]
  have hD2a := dumpsV_ascii (.jobj (vmessUpdate o ip p tag))
  have henc2 : b64_encode (dumpsV (.jobj (vmessUpdate o ip p tag)))
      = some (b64encodeBytes (dumpsV (.jobj (vmessUpdate o ip p tag)))) := by
    unfold b64_encode
    rw [utf8Encode_ascii _ hD2a]
    rfl
  have hload := loads_dumps (.jobj o) ho
  unfold vmessRewrite
  rw [hsplit]
  simp only [Option.bind_eq_bind, Option.some_bind]
  rw [hdec]
  simp only [Option.some_bind]
  rw [hload]
  simp only [Option.some_bind]
  rw [hp]
  simp only [Option.some_bind]
  rw [show dictSet (pstr "ps") (.jstr tag)
      (dictSet (pstr "port") (.jnum p) (dictSet (pstr "add") (.jstr ip) o))
    = vmessUpdate o ip p tag from rfl]
  rw [henc2]
  simp only [Option.some_bind]
  rw [hqt]
  simp only [Option.some_bind]
  rfl

theorem vmess_update_gets (o : List (PyStr × JVal)) (ip tag : PyStr) (p : Int) :
    dictGet (vmessUpdate o ip p tag) (pstr "add") = some (.jstr ip)
      ∧ dictGet (vmessUpdate o ip p tag) (pstr "port") = some (.jnum p)
      ∧ dictGet (vmessUpdate o ip p tag) (pstr "ps") = some (.jstr tag) := by
  unfold vmessUpdate
  refine ⟨?_, ?_, ?_⟩
  · rw [dictGet_set_other _ _ _ _ (by decide), dictGet_set_other _ _ _ _ (by decide),
      dictGet_set_self]
  · rw [dictGet_set_other _ _ _ _ (by decide), dictGet_set_self]
  · rw [dictGet_set_self]

/-- C1: for a well-formed vmess link carrying config `o` (surrogate-free
strings, duplicate-free keys, as `json.loads` produces) and rename inputs
`ip`, `port` (accepted by `int()` as `p`) and `tag`, renaming and then
re-parsing with the classifier recovers exactly the supplied address fields
and display tag: `extract_host` returns `ip:str(p)` and the re-parsed `ps`
field is `tag` — provided the updated config's JSON serialization has length
not divisible by 3, so that the base64 payload carries `=` padding and the
legacy decoder stops before the appended `#fragment`.  (Without that
proviso the round-trip fails; see the companion counterexample.) -/
theorem vmess_rename_roundtrip (o : List (PyStr × JVal)) (ip port tag : PyStr) (p : Int)
    (ho : canonV (.jobj o) = true) (hip : canonStr ip = true) (htag : canonStr tag = true)
    (hp : pyInt port = some p)
    (hmod : (dumpsV (.jobj (vmessUpdate o ip p tag))).length % 3 ≠ 0) :
    extract_host (rename_vmess (vmessLink o) ip port tag) (pstr "vmess")
        = ip ++ (58 :: intRepr p)
      ∧ vmess_reparse_ps (rename_vmess (vmessLink o) ip port tag) = some (.jstr tag) := by
  obtain ⟨qt, hqt⟩ := quote_some tag htag
  have hrw := vmess_rewrite_eq o ip port tag p qt ho hp hqt
  have hren : rename_vmess (vmessLink o) ip port tag
      = pstr "vmess://" ++ b64encodeBytes (dumpsV (.jobj (vmessUpdate o ip p tag)))
        ++ (35 :: qt) := by
    unfold rename_vmess
    rw [hrw]
    rfl
  have ho2 : canonV (.jobj (vmessUpdate o ip p tag)) = true := by
    unfold vmessUpdate
    exact canonV_set _ _ _ (by decide) htag
      (canonV_set _ _ _ (by decide) rfl (canonV_set _ _ _ (by decide) hip ho))
  have hD2a := dumpsV_ascii (.jobj (vmessUpdate o ip p tag))
  have hdrop : (pstr "vmess://" ++ b64encodeBytes (dumpsV (.jobj (vmessUpdate o ip p tag)))
        ++ (35 :: qt)).drop 8
      = b64encodeBytes (dumpsV (.jobj (vmessUpdate o ip p tag))) ++ (35 :: qt) := by
    rw [List.append_assoc]
    rfl
  have hdec2 : b64_decode ((pstr "vmess://"
        ++ b64encodeBytes (dumpsV (.jobj (vmessUpdate o ip p tag))) ++ (35 :: qt)).drop 8)
      = some (dumpsV (.jobj (vmessUpdate o ip p tag))) := by
    rw [hdrop, b64decode_encode_junk _ _ (ascii_lt256 _ hD2a) hmod,
      utf8IgnoreDecode_ascii _ hD2a]
  have hload2 := loads_dumps (.jobj (vmessUpdate o ip p tag)) ho2
  have hgets := vmess_update_gets o ip tag p
  constructor
  · rw [hren]
    unfold extract_host
    rw [if_pos rfl, hdec2]
    dsimp only
    rw [hload2]
    dsimp only
    rw [hgets.1, hgets.2.1]
    rfl
  · rw [hren]
    unfold vmess_reparse_ps
    rw [hdec2]
    simp only [Option.bind_eq_bind, Option.some_bind]
    rw [hload2]
    simp only [Option.some_bind]
    exact hgets.2.2

/-- C1 counterexample: the round-trip is not unconditional.  For the
well-formed config `{"add": "h", "port": "80", "ps": "x"}` and rename inputs
ip `1.2.3.4`, port `443`, tag `tagx`, the updated config's serialization has
length divisible by 3, so its base64 payload carries no `=` padding; the
legacy decoder then consumes the appended `#`-fragment characters, the JSON
parse of the corrupted decode fails, and `extract_host` returns the empty
string instead of `1.2.3.4:443`. -/
theorem vmess_rename_roundtrip_unpadded_fails :
    extract_host
        (rename_vmess
          (vmessLink [(pstr "add", .jstr (pstr "h")), (pstr "port", .jstr (pstr "80")),
            (pstr "ps", .jstr (pstr "x"))])
          (pstr "1.2.3.4") (pstr "443") (pstr "tagx"))
        (pstr "vmess")
      = [] ∧ (pstr "1.2.3.4" ++ (58 :: intRepr 443) : PyStr) ≠ [] := by
  constructor
  · decide
  · decide

/-- Witness: the round-trip theorem applied at the concrete config
`{"add": "h", "port": "80", "ps": "x"}` with ip `1.2.3.4`, port `443` and
tag `tag` (whose updated serialization has length `% 3 = 2`), recovering
`1.2.3.4:443` and the tag. -/
theorem vmess_rename_roundtrip_witness :
    pyInt (pstr "443") = some 443
    ∧ (dumpsV (.jobj (vmessUpdate
        [(pstr "add", .jstr (pstr "h")), (pstr "port", .jstr (pstr "80")),
          (pstr "ps", .jstr (pstr "x"))]
        (pstr "1.2.3.4") 443 (pstr "tag")))).length % 3 ≠ 0
    ∧ extract_host
        (rename_vmess
          (vmessLink [(pstr "add", .jstr (pstr "h")), (pstr "port", .jstr (pstr "80")),
            (pstr "ps", .jstr (pstr "x"))])
          (pstr "1.2.3.4") (pstr "443") (pstr "tag"))
        (pstr "vmess")
      = pstr "1.2.3.4" ++ (58 :: intRepr 443)
    ∧ vmess_reparse_ps
        (rename_vmess
          (vmessLink [(pstr "add", .jstr (pstr "h")), (pstr "port", .jstr (pstr "80")),
            (pstr "ps", .jstr (pstr "x"))])
          (pstr "1.2.3.4") (pstr "443") (pstr "tag"))
      = some (.jstr (pstr "tag")) :=
  ⟨by decide, by decide,
    (vmess_rename_roundtrip
      [(pstr "add", .jstr (pstr "h")), (pstr "port", .jstr (pstr "80")),
        (pstr "ps", .jstr (pstr "x"))]
      (pstr "1.2.3.4") (pstr "443") (pstr "tag") 443
      (by decide) (by decide) (by decide) (by decide) (by decide)).1,
    (vmess_rename_roundtrip
      [(pstr "add", .jstr (pstr "h")), (pstr "port", .jstr (pstr "80")),
        (pstr "ps", .jstr (pstr "x"))]
      (pstr "1.2.3.4") (pstr "443") (pstr "tag") 443
      (by decide) (by decide) (by decide) (by decide) (by decide)).2⟩
